import Mathlib

/-!
# Verification of the sunbird_scanner URL reconciliation tool

Shallow embedding of `src/tools/google-sheets/main.py` together with the parts
of CPython's `urllib.parse` library that the script calls
(`urlparse`, `parse_qs`, `urlencode`, `urlunparse`, `quote_plus`, `unquote`).

Modelling conventions:
* Python `str` values are modelled as `List Char` (with `String` wrappers at
  the boundaries of the repository's own functions).
* `urllib.parse` is modelled after CPython 3.9 (e.g. `parse_qsl` splits on
  the single separator `'&'`; `urlsplit` validates only bracket balance of
  the authority).  Later CPython versions additionally delete `\t\r\n` and
  strip leading control characters from the URL before splitting; none of the
  properties below exercise control characters, so that sanitisation step is
  not modelled.
* Python `str.lower` is modelled on ASCII letters, which is exact for every
  string appearing in the script's parameter set and comparisons.
* Network I/O (`aiohttp`) is modelled by an oracle `net : String → NetOutcome`
  describing, for each URL, how its single bounded fetch attempt ends.
  Exceptions are modelled with `Except`; a `raise` that the Python code does
  not catch is an `Except.error` result.
-/

/-- Python `str.isspace` characters relevant to `str.strip()` (ASCII part). -/
def pyIsSpace (c : Char) : Bool :=
  c == ' ' || c == '\t' || c == '\n' || c == '\r' || c == '\x0b' || c == '\x0c'

/-- `str.strip()` with no arguments: remove leading and trailing whitespace. -/
def pyStripData (s : List Char) : List Char :=
  ((s.dropWhile pyIsSpace).reverse.dropWhile pyIsSpace).reverse

/-- `str.strip()` on a `String`. -/
def pyStripStr (s : String) : String :=
  ⟨pyStripData s.data⟩

/-- ASCII lower-casing of one character (as CPython does for URL schemes,
which are ASCII; `str.lower` on other characters is not exercised here). -/
def pyLowerChar (c : Char) : Char :=
  if 'A' ≤ c ∧ c ≤ 'Z' then Char.ofNat (c.toNat + 32) else c

/-- `str.lower()` over a list of characters. -/
def lowerStr (s : List Char) : List Char := s.map pyLowerChar

/-- `str.rstrip('/')`: remove trailing slash characters. -/
def rstripSlashes (s : List Char) : List Char :=
  (s.reverse.dropWhile (fun c => c == '/')).reverse

/-- `s.split(sep, 1)`: split at the first occurrence of `sep`, if any.
Returns the part before and the part after the separator. -/
def splitFirst (sep : Char) : List Char → Option (List Char × List Char)
  | [] => none
  | c :: rest =>
    if c = sep then some ([], rest)
    else match splitFirst sep rest with
         | none => none
         | some (a, b) => some (c :: a, b)

/-- Split at the last occurrence of `sep`, if any (used for `str.rfind`). -/
def splitLast (sep : Char) (xs : List Char) : Option (List Char × List Char) :=
  match splitFirst sep xs.reverse with
  | none => none
  | some (a, b) => some (b.reverse, a.reverse)

/-- `str.split(sep)` (all occurrences, keeping empty chunks). -/
def splitOnChar (sep : Char) : List Char → List (List Char)
  | [] => [[]]
  | c :: rest =>
    match splitOnChar sep rest with
    | [] => [[]]
    | h :: t => if c = sep then [] :: h :: t else (c :: h) :: t

/-- `sep.join(chunks)`. -/
def joinSep (sep : Char) : List (List Char) → List Char
  | [] => []
  | [x] => x
  | x :: y :: rest => x ++ sep :: joinSep sep (y :: rest)

/-! ## Percent-encoding: `quote_plus` / `unquote` and UTF-8 -/

def isHexDigitChar (c : Char) : Bool :=
  ('0' ≤ c && c ≤ '9') || ('a' ≤ c && c ≤ 'f') || ('A' ≤ c && c ≤ 'F')

def hexVal (c : Char) : Nat :=
  if '0' ≤ c ∧ c ≤ '9' then c.toNat - 48
  else if 'a' ≤ c ∧ c ≤ 'f' then c.toNat - 87
  else if 'A' ≤ c ∧ c ≤ 'F' then c.toNat - 55
  else 0

/-- Upper-case hex digit of a value below 16 (as `urllib.parse.quote` emits). -/
def hexDigitUpper (n : Nat) : Char :=
  if n < 10 then Char.ofNat (48 + n) else Char.ofNat (55 + n)

/-- `'%XX'` encoding of one byte. -/
def percentByte (b : Nat) : List Char := ['%', hexDigitUpper (b / 16), hexDigitUpper (b % 16)]

/-- UTF-8 encoding of a Unicode scalar value, as a list of byte values. -/
def encodeScalar (n : Nat) : List Nat :=
  if n < 128 then [n]
  else if n < 2048 then [192 + n / 64, 128 + n % 64]
  else if n < 65536 then [224 + n / 4096, 128 + (n / 64) % 64, 128 + n % 64]
  else [240 + n / 262144, 128 + (n / 4096) % 64, 128 + (n / 64) % 64, 128 + n % 64]

/-- The characters `urllib.parse.quote` never encodes (`_ALWAYS_SAFE`),
with the default `safe=''` of `quote_plus` via `urlencode`. -/
def alwaysSafeChar (c : Char) : Bool :=
  ('A' ≤ c && c ≤ 'Z') || ('a' ≤ c && c ≤ 'z') || ('0' ≤ c && c ≤ '9') ||
    c == '_' || c == '.' || c == '-' || c == '~'

/-- `quote_plus` on a single character: safe characters pass through, a space
becomes `'+'`, anything else is percent-encoded byte by byte (UTF-8). -/
def quoteChar (c : Char) : List Char :=
  if alwaysSafeChar c then [c]
  else if c = ' ' then ['+']
  else ((encodeScalar c.toNat).map percentByte).flatten

/-- `urllib.parse.quote_plus(s, safe='')`. -/
def quotePlus (s : List Char) : List Char :=
  (s.map quoteChar).flatten

/-- Token stream for `unquote`: a byte (either a literal ASCII character or a
decoded `%XX` escape) or a non-ASCII character passed through verbatim. -/
inductive QTok where
  | byte (b : Nat)
  | chr (c : Char)
  deriving DecidableEq, Repr

/-- Fuel-indexed tokenizer of the argument of `unquote` (structural in the
fuel, which is enough whenever `fuel ≥ xs.length`): `%XX` hex escapes become
bytes, other ASCII characters become their own byte, non-ASCII characters
pass through. -/
def tokenizeQF : Nat → List Char → List QTok
  | 0, _ => []
  | _ + 1, [] => []
  | f + 1, c :: rest =>
    if c = '%' then
      match rest with
      | a :: b :: rest2 =>
        if isHexDigitChar a && isHexDigitChar b then
          QTok.byte (hexVal a * 16 + hexVal b) :: tokenizeQF f rest2
        else QTok.byte 37 :: tokenizeQF f rest
      | _ => QTok.byte 37 :: tokenizeQF f rest
    else if c.toNat < 128 then QTok.byte c.toNat :: tokenizeQF f rest
    else QTok.chr c :: tokenizeQF f rest

def tokenizeQ (xs : List Char) : List QTok := tokenizeQF xs.length xs

/-- U+FFFD, the replacement character of `bytes.decode('utf-8', 'replace')`. -/
def replChar : Char := Char.ofNat 65533

/-- Is `b` a UTF-8 continuation byte? -/
def isCont (b : Nat) : Bool := 128 ≤ b && b ≤ 191

/-- Lower bound of the admissible second byte after lead byte `b`
(UTF-8 shortest-form and scalar-range restrictions). -/
def cont2Lo (b : Nat) : Nat := if b = 224 then 160 else if b = 240 then 144 else 128

/-- Upper bound of the admissible second byte after lead byte `b`. -/
def cont2Hi (b : Nat) : Nat := if b = 237 then 159 else if b = 244 then 143 else 191

def isCont2 (b b1 : Nat) : Bool := cont2Lo b ≤ b1 && b1 ≤ cont2Hi b

/-- One step of UTF-8 decoding with `errors='replace'` over the token stream,
with the recursion abstracted: literal characters pass through, byte runs are
decoded, each maximal invalid subsequence becomes one U+FFFD. -/
def decodeStep (rec : List QTok → List Char) : List QTok → List Char
  | [] => []
  | QTok.chr c :: ts => c :: rec ts
  | QTok.byte b :: ts =>
    if b < 128 then Char.ofNat b :: rec ts
    else if 194 ≤ b && b ≤ 223 then
      match ts with
      | QTok.byte b1 :: ts1 =>
        if isCont b1 then Char.ofNat ((b - 192) * 64 + (b1 - 128)) :: rec ts1
        else replChar :: rec ts
      | _ => replChar :: rec ts
    else if 224 ≤ b && b ≤ 239 then
      match ts with
      | QTok.byte b1 :: ts1 =>
        if isCont2 b b1 then
          match ts1 with
          | QTok.byte b2 :: ts2 =>
            if isCont b2 then
              Char.ofNat ((b - 224) * 4096 + (b1 - 128) * 64 + (b2 - 128)) :: rec ts2
            else replChar :: rec ts1
          | _ => replChar :: rec ts1
        else replChar :: rec ts
      | _ => replChar :: rec ts
    else if 240 ≤ b && b ≤ 244 then
      match ts with
      | QTok.byte b1 :: ts1 =>
        if isCont2 b b1 then
          match ts1 with
          | QTok.byte b2 :: ts2 =>
            if isCont b2 then
              match ts2 with
              | QTok.byte b3 :: ts3 =>
                if isCont b3 then
                  Char.ofNat ((b - 240) * 262144 + (b1 - 128) * 4096 + (b2 - 128) * 64 + (b3 - 128)) ::
                    rec ts3
                else replChar :: rec ts2
              | _ => replChar :: rec ts2
            else replChar :: rec ts1
          | _ => replChar :: rec ts1
        else replChar :: rec ts
      | _ => replChar :: rec ts
    else replChar :: rec ts

/-- Fuel-indexed UTF-8 decoding (structural in the fuel, which is enough
whenever `fuel ≥ ts.length`, since every step consumes at least one token). -/
def decodeToksF : Nat → List QTok → List Char
  | 0, _ => []
  | f + 1, ts => decodeStep (decodeToksF f) ts

def decodeToks (ts : List QTok) : List Char := decodeToksF ts.length ts

/-- `urllib.parse.unquote(s, 'utf-8', 'replace')`. -/
def pyUnquote (s : List Char) : List Char := decodeToks (tokenizeQ s)

/-- `unquote_plus`-style decoding used by `parse_qsl`: first `'+' -> ' '`,
then `unquote`. -/
def unquotePlus (s : List Char) : List Char :=
  pyUnquote (s.map fun c => if c = '+' then ' ' else c)

/-! ## `parse_qs` / `urlencode` -/

/-- `urllib.parse.parse_qsl(qs, keep_blank_values=True)` with the
post-2021 default separator `'&'`. -/
def pyParseQsl (qs : List Char) : List (List Char × List Char) :=
  (splitOnChar '&' qs).filterMap fun nv =>
    if nv.isEmpty then none
    else match splitFirst '=' nv with
         | some (n, v) => some (unquotePlus n, unquotePlus v)
         | none => some (unquotePlus nv, [])

/-- Ordered-dict insertion used by `parse_qs`: append the value to an existing
key's list, or add a new key at the end. -/
def qsInsert (k v : List Char) : List (List Char × List (List Char)) →
    List (List Char × List (List Char))
  | [] => [(k, [v])]
  | (k', vs) :: rest =>
    if k' = k then (k', vs ++ [v]) :: rest else (k', vs) :: qsInsert k v rest

/-- `urllib.parse.parse_qs(qs, keep_blank_values=True)` as an insertion-ordered
association list. -/
def pyParseQs (qs : List Char) : List (List Char × List (List Char)) :=
  (pyParseQsl qs).foldl (fun d kv => qsInsert kv.1 kv.2 d) []

/-- `urllib.parse.urlencode(d, doseq=True)` over the ordered dict. -/
def pyUrlencode (d : List (List Char × List (List Char))) : List Char :=
  joinSep '&' ((d.map fun kv => kv.2.map fun v => quotePlus kv.1 ++ '=' :: quotePlus v).flatten)

/-! ## `urlsplit` / `urlparse` / `urlunparse` -/

/-- `urllib.parse.scheme_chars`. -/
def isSchemeChar (c : Char) : Bool :=
  ('a' ≤ c && c ≤ 'z') || ('A' ≤ c && c ≤ 'Z') || ('0' ≤ c && c ≤ '9') ||
    c == '+' || c == '-' || c == '.'

inductive UErr where
  /-- `ValueError("Invalid IPv6 URL")` raised by `urlsplit`. -/
  | invalidIPv6
  /-- `IndexError` from `DataFrame.iloc` past the end. -/
  | indexError
  deriving DecidableEq, Repr

structure UrlSplitResult where
  scheme : List Char
  netloc : List Char
  path : List Char
  query : List Char
  fragment : List Char
  deriving DecidableEq, Repr

/-- Scheme detection step of `urlsplit`: `i = url.find(':')`, and the prefix
before the colon must be nonempty and made of scheme characters. -/
def schemeSplit (url : List Char) : List Char × List Char :=
  match splitFirst ':' url with
  | some (pre, post) =>
    if !pre.isEmpty && pre.all isSchemeChar then (lowerStr pre, post) else ([], url)
  | none => ([], url)

/-- A character that ends the netloc in `_splitnetloc`. -/
def netEnd (c : Char) : Bool := c == '/' || c == '?' || c == '#'

/-- `_splitnetloc` step of `urlsplit`: if the remainder starts with `//`,
take the netloc up to the next `/`, `?` or `#`. -/
def netlocSplit (u1 : List Char) : List Char × List Char :=
  if u1.take 2 = ['/', '/'] then
    ((u1.drop 2).takeWhile (fun c => !netEnd c),
     (u1.drop 2).dropWhile (fun c => !netEnd c))
  else ([], u1)

/-- Fragment step of `urlsplit`: split at the first `'#'`, if any. -/
def fragSplit (u2 : List Char) : List Char × List Char :=
  match splitFirst '#' u2 with
  | none => (u2, [])
  | some (a, b) => (a, b)

/-- Query step of `urlsplit`: split at the first `'?'`, if any. -/
def querySplit (u3 : List Char) : List Char × List Char :=
  match splitFirst '?' u3 with
  | none => (u3, [])
  | some (a, b) => (a, b)

/-- The bracket-balance validation of the authority in `urlsplit`. -/
def badBrackets (netloc : List Char) : Prop :=
  ('[' ∈ netloc ∧ ']' ∉ netloc) ∨ (']' ∈ netloc ∧ '[' ∉ netloc)

instance (netloc : List Char) : Decidable (badBrackets netloc) := by
  unfold badBrackets
  infer_instance

/-- `urllib.parse.urlsplit` (CPython 3.9, `allow_fragments=True`). -/
def pyUrlsplit (url : List Char) : Except UErr UrlSplitResult :=
  let sp := schemeSplit url
  let nl := netlocSplit sp.2
  if badBrackets nl.1 then Except.error UErr.invalidIPv6
  else
    let f := fragSplit nl.2
    let q := querySplit f.1
    Except.ok ⟨sp.1, nl.1, q.1, q.2, f.2⟩

structure UrlParseResult where
  scheme : List Char
  netloc : List Char
  path : List Char
  params : List Char
  query : List Char
  fragment : List Char
  deriving DecidableEq, Repr

/-- `urllib.parse._splitparams` (only called when `';'` occurs in the path). -/
def pySplitParams (url : List Char) : List Char × List Char :=
  if '/' ∈ url then
    match splitLast '/' url with
    | some (before, after) =>
      match splitFirst ';' after with
      | none => (url, [])
      | some (a, b) => (before ++ '/' :: a, b)
    | none => (url, [])
  else
    match splitFirst ';' url with
    | none => (url, [])
    | some (a, b) => (a, b)

/-- `urllib.parse.urlparse`. -/
def pyUrlparse (url : List Char) : Except UErr UrlParseResult := do
  let s ← pyUrlsplit url
  let pp := if ';' ∈ s.path then pySplitParams s.path else (s.path, [])
  Except.ok ⟨s.scheme, s.netloc, pp.1, pp.2, s.query, s.fragment⟩

/-- `urllib.parse.urlunsplit`. -/
def pyUrlunsplit (scheme netloc url query fragment : List Char) : List Char :=
  let url1 := if netloc ≠ [] ∨ url.take 2 = ['/', '/'] then
                '/' :: '/' :: (netloc ++ (if url ≠ [] ∧ url.take 1 ≠ ['/'] then '/' :: url else url))
              else url
  let url2 := if scheme ≠ [] then scheme ++ ':' :: url1 else url1
  let url3 := if query ≠ [] then url2 ++ '?' :: query else url2
  if fragment ≠ [] then url3 ++ '#' :: fragment else url3

/-- `urllib.parse.urlunparse`. -/
def pyUrlunparse (scheme netloc path params query fragment : List Char) : List Char :=
  pyUrlunsplit scheme netloc (if params ≠ [] then path ++ ';' :: params else path) query fragment

/-! ## The script's own functions -/

/-- The `tracking_params` set of `strip_tracking_params`, copied verbatim
(including the mixed-case entry `hsCtaTracking`). -/
def trackingParams : List (List Char) :=
  ["utm_source".data, "utm_medium".data, "utm_campaign".data, "utm_term".data,
   "utm_content".data,
   "fbclid".data, "gclid".data, "_ga".data, "ref".data, "source".data,
   "campaign".data, "medium".data,
   "ref_src".data, "ref_url".data, "ref_map".data, "ref_type".data,
   "ref_id".data, "ref_content".data,
   "_hsenc".data, "_hsmi".data, "mc_cid".data, "mc_eid".data,
   "ml_subscriber".data, "ml_subscriber_hash".data,
   "s".data, "t".data, "twclid".data,
   "share".data, "action".data, "feature".data, "tracking".data,
   "tracked".data, "debug".data,
   "dm_i".data, "eh".data, "sa".data, "ved".data, "ei".data, "url".data,
   "src".data, "source_id".data, "sourceid".data,
   "_ke".data, "hsCtaTracking".data, "hash".data, "_branch_match_id".data]

/-- The dict comprehension `{k: v for k, v in query_dict.items() if k.lower()
not in tracking_params}`. -/
def stripFilter (d : List (List Char × List (List Char))) :
    List (List Char × List (List Char)) :=
  d.filter fun kv => ¬ lowerStr kv.1 ∈ trackingParams

/-- Body of the `try` block of `strip_tracking_params`: parse, filter the
query dict by `k.lower() not in tracking_params`, re-encode, rebuild, and
strip trailing slashes. -/
def stripCore (url : List Char) : Except UErr (List Char) := do
  let p ← pyUrlparse url
  let nq := pyUrlencode (stripFilter (pyParseQs p.query))
  Except.ok (rstripSlashes (pyUrlunparse p.scheme p.netloc p.path p.params nq p.fragment))

/-- `strip_tracking_params` (lines 68-116): guard on falsy input, then the
`try` body; any exception is caught and the original string returned. -/
def strip_tracking_params (u : String) : String :=
  if u.data = [] then u
  else match stripCore u.data with
       | Except.ok v => ⟨v⟩
       | Except.error _ => u

/-- `normalize_url_path` (lines 161-168): strip trailing slashes, then remove
one trailing `/cl/s`. -/
def normalize_url_path (path : List Char) : List Char :=
  let p := rstripSlashes path
  if ("/cl/s".data).isSuffixOf p then p.take (p.length - 5) else p

/-- The comparison performed by `compare_urls` once both URLs are parsed:
domains compared literally, normalized paths case-insensitively. -/
def compareCore (n1 p1 n2 p2 : List Char) : Bool × String :=
  if n1 ≠ n2 then (false, "Different domains")
  else if lowerStr (normalize_url_path p1) ≠ lowerStr (normalize_url_path p2) then
    (false, "Different paths")
  else (true, "URLs match")

/-- `compare_urls` (lines 170-189).  There is no exception handler in the
source, so a parse failure propagates as `Except.error`. -/
def compare_urls (url1 url2 : String) : Except UErr (Bool × String) := do
  let p1 ← pyUrlparse url1.data
  let p2 ← pyUrlparse url2.data
  Except.ok (compareCore p1.netloc p1.path p2.netloc p2.path)

/-! ## Resolver (`fetch_url`, `verify_urls`) -/

/-- How a single `session.get` attempt ends, as seen by `fetch_url`. -/
inductive NetOutcome where
  /-- The request succeeded; `finalUrl` is `str(response.url)` after
  redirects, `status` the HTTP status code. -/
  | success (finalUrl : String) (status : Nat)
  /-- `asyncio.TimeoutError`. -/
  | timeout
  /-- Any other exception (transport or parse error). -/
  | failure (msg : String)

/-- A Python value at the `fetch_url` boundary (the URL column can contain
non-string data). -/
inductive PyVal where
  | none
  | str (s : String)
  | num (n : Int)
  deriving DecidableEq, Repr

/-- Python truthiness of a `PyVal` (`not url`). -/
def pyTruthy : PyVal → Bool
  | PyVal.none => false
  | PyVal.str s => !s.isEmpty
  | PyVal.num n => n != 0

def pyIsStr : PyVal → Bool
  | PyVal.str _ => true
  | _ => false

/-- `fetch_url` (lines 49-66).  The second component records whether an HTTP
request was issued.  Falsy or non-string input is returned unchanged without
a request; on success the final URL is returned; on timeout or any other
exception the original URL is returned (fail-open). -/
def fetch_url (net : String → NetOutcome) (url : PyVal) : PyVal × Bool :=
  if !pyTruthy url || !pyIsStr url then (url, false)
  else match url with
       | PyVal.str s =>
         match net s with
         | NetOutcome.success finalUrl _ => (PyVal.str finalUrl, true)
         | NetOutcome.timeout => (PyVal.str s, true)
         | NetOutcome.failure _ => (PyVal.str s, true)
       | v => (v, false)

/-- `fetch_url` specialised to string input, returning the resulting URL. -/
def fetchS (net : String → NetOutcome) (s : String) : String :=
  match fetch_url net (PyVal.str s) with
  | (PyVal.str r, _) => r
  | _ => s

/-- One batch of `verify_urls`: non-blank URLs of each slice are fetched
(slices are filtered by `url.strip()` truthiness), tracking parameters are
stripped from the resolved short URLs, and the two result lists are zipped. -/
def batchPairs (net : String → NetOutcome) (bs bl : List String) :
    List (String × String) :=
  let shortRes := (bs.filter fun u => !(pyStripStr u).isEmpty).map (fetchS net)
  let longRes := (bl.filter fun u => !(pyStripStr u).isEmpty).map (fetchS net)
  (shortRes.map strip_tracking_params).zip longRes

/-- Fuel-indexed batching loop of `verify_urls` (structural in the fuel,
which is enough whenever `fuel ≥ shortUrls.length`). -/
def verifyUrlsF (net : String → NetOutcome) :
    Nat → List String → List String → List (String × String)
  | 0, _, _ => []
  | _ + 1, [], _ => []
  | f + 1, s :: ss, longUrls =>
    batchPairs net ((s :: ss).take 50) (longUrls.take 50) ++
      verifyUrlsF net f ((s :: ss).drop 50) (longUrls.drop 50)

/-- `verify_urls` (lines 118-144): process both lists in batches of 50,
concatenating the per-batch pair lists.  The loop `for i in range(0,
len(short_urls), batch_size)` is driven by the length of the short list. -/
def verifyUrls (net : String → NetOutcome) (shortUrls longUrls : List String) :
    List (String × String) :=
  verifyUrlsF net shortUrls.length shortUrls longUrls

/-! ## Orchestrator (`main`, lines 206-266) -/

structure MismatchRecord where
  id : Int
  url1 : String
  url2 : String
  details : String
  deriving DecidableEq, Repr

/-- `'web.archive.org'`. -/
def archiveMark : List Char := "web.archive.org".data

/-- Python's substring test `sub in s`. -/
def containsSub (sub s : List Char) : Bool :=
  s.tails.any fun t => sub.isPrefixOf t

/-- The result-processing loop of `main` (lines 240-254): pairs whose second
URL contains `web.archive.org` are skipped; otherwise `compare_urls` decides
whether a `MismatchRecord` is emitted.  `ids` carries
`df1_filtered['id']` for positional lookup (`iloc[i]`). -/
def processResults (results : List (String × String)) (ids : List Int) :
    Except UErr (List MismatchRecord) :=
  match results, ids with
  | [], _ => Except.ok []
  | _ :: _, [] => Except.error UErr.indexError
  | (v1, v2) :: rs, i :: rest =>
    if containsSub archiveMark v2.data then processResults rs rest
    else
      match compare_urls v1 v2 with
      | Except.error e => Except.error e
      | Except.ok r =>
        match processResults rs rest with
        | Except.error e => Except.error e
        | Except.ok tail =>
          if r.1 then Except.ok tail
          else Except.ok ({ id := i, url1 := v1, url2 := v2, details := r.2 } :: tail)

/-- Insertion step for sorting rows ascending by id (`sort_values('id')`). -/
def insertByKey (x : Int × String) : List (Int × String) → List (Int × String)
  | [] => [x]
  | y :: ys => if x.1 ≤ y.1 then x :: y :: ys else y :: insertByKey x ys

def sortByKey (l : List (Int × String)) : List (Int × String) :=
  l.foldr insertByKey []

inductive RunResult where
  /-- "No common IDs found between sheets": the run aborts before resolving. -/
  | noOverlap
  /-- Normal completion with the collected mismatch records. -/
  | finished (mismatches : List MismatchRecord)
  deriving DecidableEq, Repr

/-- The reconciliation core of `main` (lines 216-254), starting from the two
loaded `(id, url)` tables: intersect ids, abort on empty overlap, filter and
sort both tables, resolve via `verify_urls`, and post-process. -/
def mainCore (net : String → NetOutcome) (df1 df2 : List (Int × String)) :
    Except UErr RunResult :=
  let ids1 := df1.map Prod.fst
  let ids2 := df2.map Prod.fst
  let common := ids1.filter fun i => i ∈ ids2
  if common.isEmpty then Except.ok RunResult.noOverlap
  else
    let d1 := sortByKey (df1.filter fun r => r.1 ∈ common)
    let d2 := sortByKey (df2.filter fun r => r.1 ∈ common)
    let results := verifyUrls net (d1.map Prod.snd) (d2.map Prod.snd)
    match processResults results (d1.map Prod.fst) with
    | Except.ok ms => Except.ok (RunResult.finished ms)
    | Except.error e => Except.error e

/-! ## Basic facts used by several claims -/

/-- A concrete network oracle on which every fetch times out. -/
def netTimeout : String → NetOutcome := fun _ => NetOutcome.timeout

theorem fetch_url_fail (net : String → NetOutcome) (u : String)
    (h : net u = NetOutcome.timeout ∨ ∃ m, net u = NetOutcome.failure m) :
    fetch_url net (PyVal.str u) = (PyVal.str u, !u.isEmpty) := by
  rcases h with h | ⟨m, h⟩ <;>
    · unfold fetch_url
      by_cases he : u.isEmpty <;> simp [pyTruthy, pyIsStr, he, h]

theorem fetchS_fail (net : String → NetOutcome) (u : String)
    (h : net u = NetOutcome.timeout ∨ ∃ m, net u = NetOutcome.failure m) :
    fetchS net u = u := by
  unfold fetchS
  rw [fetch_url_fail net u h]

/-! ## C2: tracking-parameter removal and the dead `hsCtaTracking` entry -/

/-- C2: the claim says parameter matching is case-insensitive on the key for
every member of the tracking set, including `hsCtaTracking`.  The code filters
with `k.lower() not in tracking_params`, but the set member `hsCtaTracking`
is stored in mixed case, so no key's lower-casing can ever equal it: a
`hsCtaTracking` parameter (of any capitalisation) is never removed, while the
other (all-lowercase) members behave as claimed.  Concretely,
`utm_source` is removed and `hsCtaTracking` is kept. -/
theorem c2_hsCtaTracking_kept :
    strip_tracking_params "https://x.com/p?hsCtaTracking=abc&utm_source=n" =
      "https://x.com/p?hsCtaTracking=abc" ∧
    strip_tracking_params "https://x.com/p?HSCTATRACKING=abc" =
      "https://x.com/p?HSCTATRACKING=abc" := by
  constructor <;> rfl

/-! ## C7: the Resolver fails open -/

/-- C7: if the fetch of `u` ends in a timeout or any other exception,
`fetch_url` returns the original input URL unchanged, and the single-URL
resolve returns a pair carrying that original URL on the reference side
(the candidate side additionally passes through `strip_tracking_params`,
which the surrounding pipeline always applies to resolved short URLs). -/
theorem c7_resolver_fails_open (net : String → NetOutcome) (u : String)
    (h : net u = NetOutcome.timeout ∨ ∃ m, net u = NetOutcome.failure m) :
    fetchS net u = u ∧ (fetch_url net (PyVal.str u)).1 = PyVal.str u ∧
      (pyStripStr u ≠ "" →
        verifyUrls net [u] [u] = [(strip_tracking_params u, u)]) := by
  refine ⟨fetchS_fail net u h, by rw [fetch_url_fail net u h], fun hb => ?_⟩
  have hne : (pyStripStr u).isEmpty = false := by
    cases hsi : (pyStripStr u).isEmpty
    · rfl
    · exact absurd ((String.isEmpty_iff _).mp hsi) hb
  simp [verifyUrls, verifyUrlsF, batchPairs, hne, fetchS_fail net u h]

/-- Witness for C7 at a concrete unreachable URL. -/
theorem c7_witness :
    fetchS netTimeout "http://unreachable.example/x" = "http://unreachable.example/x" ∧
      (fetch_url netTimeout (PyVal.str "http://unreachable.example/x")).1 =
        PyVal.str "http://unreachable.example/x" ∧
      (pyStripStr "http://unreachable.example/x" ≠ "" →
        verifyUrls netTimeout ["http://unreachable.example/x"] ["http://unreachable.example/x"] =
          [(strip_tracking_params "http://unreachable.example/x",
            "http://unreachable.example/x")]) :=
  c7_resolver_fails_open netTimeout "http://unreachable.example/x" (Or.inl rfl)

/-! ## C8: the Canonicalizer never raises; parse failure returns the input -/

/-- C8: `strip_tracking_params` is total by construction (the `except` block
catches every exception of the `try` body, whose only failure point is the
parse), and whenever the parse fails the original string is returned
unmodified. -/
theorem c8_canonicalizer_recovers (u : String) (e : UErr)
    (h : stripCore u.data = Except.error e) :
    strip_tracking_params u = u := by
  unfold strip_tracking_params
  by_cases hd : u.data = [] <;> simp [hd, h]

/-- Witness for C8: `"http://["` fails to parse (unbalanced IPv6 bracket) and
is returned unchanged. -/
theorem c8_witness :
    stripCore "http://[".data = Except.error UErr.invalidIPv6 ∧
      strip_tracking_params "http://[" = "http://[" :=
  ⟨rfl, c8_canonicalizer_recovers "http://[" UErr.invalidIPv6 rfl⟩

/-! ## C9: empty identifier intersection aborts with no-overlap -/

/-- C9: if no identifier of the first table occurs in the second, `main`
takes the `if not common_ids` branch: the run ends in the terminal
no-overlap condition and no mismatch record is produced. -/
theorem c9_no_overlap (net : String → NetOutcome) (df1 df2 : List (Int × String))
    (h : ∀ i ∈ df1.map Prod.fst, i ∉ df2.map Prod.fst) :
    mainCore net df1 df2 = Except.ok RunResult.noOverlap := by
  unfold mainCore
  have hf : (df1.map Prod.fst).filter (fun i => decide (i ∈ df2.map Prod.fst)) = [] := by
    rw [List.filter_eq_nil_iff]
    intro a ha
    simpa using h a ha
  simp [hf]

/-- Witness for C9 on two concrete tables with disjoint identifiers. -/
theorem c9_witness :
    mainCore netTimeout [(1, "http://a.example/x")] [(2, "http://b.example/y")] =
      Except.ok RunResult.noOverlap :=
  c9_no_overlap netTimeout _ _ (by decide)

/-! ## C10: falsy and non-string inputs to `fetch_url` -/

/-- C10: an input that is `None`, the empty string, or not a string at all is
returned unchanged by `fetch_url`, and no HTTP request is issued (the second
component of the model records whether `session.get` ran). -/
theorem c10_fetch_guard (net : String → NetOutcome) (v : PyVal)
    (h : v = PyVal.none ∨ v = PyVal.str "" ∨ pyIsStr v = false) :
    fetch_url net v = (v, false) := by
  rcases h with h | h | h
  · subst h; rfl
  · subst h; rfl
  · unfold fetch_url
    cases v with
    | none => rfl
    | str s => simp [pyIsStr] at h
    | num n => simp [pyIsStr]

/-- Witness for C10 at `None` input. -/
theorem c10_witness : fetch_url netTimeout PyVal.none = (PyVal.none, false) :=
  c10_fetch_guard netTimeout PyVal.none (Or.inl rfl)

/-! ## C3: the Comparator and parse failures -/

/-- C3 counterexample: the claim says a URL parse failure inside the
Comparator is recovered locally and never raises to the caller.
`compare_urls` has no exception handler, so the `ValueError` of
`urlparse("http://[")` propagates: the comparison aborts instead of
returning a mismatch result. -/
theorem c3_counterexample :
    compare_urls "http://[" "http://x.example" = Except.error UErr.invalidIPv6 := rfl

/-- C3 amended: for every pair of strings that both parse successfully the
Comparator returns a result without raising; but a parse failure is not
recovered — it propagates to the caller (in `main` it is caught only by the
top-level fatal handler), rather than being treated as a mismatch. -/
theorem c3_amended (u1 u2 : String) (p1 p2 : UrlParseResult)
    (h1 : pyUrlparse u1.data = Except.ok p1) (h2 : pyUrlparse u2.data = Except.ok p2) :
    compare_urls u1 u2 = Except.ok (compareCore p1.netloc p1.path p2.netloc p2.path) := by
  unfold compare_urls
  rw [h1, h2]
  rfl

/-- Witness for C3 (amended) on two concrete parseable URLs. -/
theorem c3_witness :
    compare_urls "https://a.example/x" "https://b.example/x" =
      Except.ok (false, "Different domains") := by
  have h := c3_amended "https://a.example/x" "https://b.example/x"
    ⟨"https".data, "a.example".data, "/x".data, [], [], []⟩
    ⟨"https".data, "b.example".data, "/x".data, [], [], []⟩ rfl rfl
  rw [h]
  rfl

/-! ## C5: the comparison algorithm -/

/-- C5: for every pair of parseable URLs the Comparator's result is the pure
function `compareCore` of the two host components and the two paths alone
(so query strings and fragments are never inspected), and `compareCore`
returns `(false, "Different domains")` exactly when the netlocs differ
literally; otherwise `(false, "Different paths")` exactly when the
normalized paths (trailing slashes stripped, one trailing `/cl/s` removed)
differ case-insensitively; and `(true, "URLs match")` otherwise. -/
theorem c5_compare_algorithm (u1 u2 : String) (p1 p2 : UrlParseResult)
    (h1 : pyUrlparse u1.data = Except.ok p1) (h2 : pyUrlparse u2.data = Except.ok p2) :
    (compare_urls u1 u2 = Except.ok (compareCore p1.netloc p1.path p2.netloc p2.path)) ∧
    (compareCore p1.netloc p1.path p2.netloc p2.path = (false, "Different domains") ↔
      p1.netloc ≠ p2.netloc) ∧
    (p1.netloc = p2.netloc →
      (compareCore p1.netloc p1.path p2.netloc p2.path = (false, "Different paths") ↔
        lowerStr (normalize_url_path p1.path) ≠ lowerStr (normalize_url_path p2.path))) ∧
    (p1.netloc = p2.netloc ∧
        lowerStr (normalize_url_path p1.path) = lowerStr (normalize_url_path p2.path) →
      compareCore p1.netloc p1.path p2.netloc p2.path = (true, "URLs match")) := by
  refine ⟨by unfold compare_urls; rw [h1, h2]; rfl, ?_, ?_, ?_⟩
  · unfold compareCore
    by_cases hn : p1.netloc = p2.netloc
    · simp only [hn, ne_eq, not_true_eq_false, if_false, iff_false]
      by_cases hp : lowerStr (normalize_url_path p1.path) = lowerStr (normalize_url_path p2.path) <;>
        simp [hp]
    · simp [hn]
  · intro hn
    unfold compareCore
    simp only [hn, ne_eq, not_true_eq_false, if_false]
    by_cases hp : lowerStr (normalize_url_path p1.path) = lowerStr (normalize_url_path p2.path) <;>
      simp [hp]
  · rintro ⟨hn, hp⟩
    unfold compareCore
    simp [hn, hp]

/-- Witness for C5: same host (case-sensitive match), paths differing only in
case and a trailing slash, hence a match. -/
theorem c5_witness :
    compare_urls "https://A.example/X" "https://A.example/x/" =
      Except.ok (compareCore "A.example".data "/X".data "A.example".data "/x/".data) ∧
    compareCore "A.example".data "/X".data "A.example".data "/x/".data =
      (true, "URLs match") := by
  have h := c5_compare_algorithm "https://A.example/X" "https://A.example/x/"
    ⟨"https".data, "A.example".data, "/X".data, [], [], []⟩
    ⟨"https".data, "A.example".data, "/x/".data, [], [], []⟩ rfl rfl
  exact ⟨h.1, h.2.2.2 ⟨rfl, by decide⟩⟩

/-! ## Splitting lemmas -/

theorem splitFirst_eq (sep : Char) (xs a b : List Char)
    (h : splitFirst sep xs = some (a, b)) : xs = a ++ sep :: b ∧ sep ∉ a := by
  induction xs generalizing a with
  | nil => simp [splitFirst] at h
  | cons c rest ih =>
    unfold splitFirst at h
    by_cases hc : c = sep
    · rw [if_pos hc] at h
      injection h with h
      injection h with h1 h2
      subst h1
      subst h2
      subst hc
      exact ⟨rfl, by simp⟩
    · rw [if_neg hc] at h
      cases hsf : splitFirst sep rest with
      | none => rw [hsf] at h; exact absurd h (by simp)
      | some ab =>
        rw [hsf] at h
        injection h with h
        rcases ab with ⟨a', b'⟩
        injection h with h1 h2
        subst h2
        rcases ih a' hsf with ⟨hrest, hmem⟩
        subst h1
        constructor
        · simpa using hrest
        · simp only [List.mem_cons, not_or]
          exact ⟨fun hcs => hc hcs.symm, hmem⟩

theorem splitFirst_none (sep : Char) (xs : List Char)
    (h : splitFirst sep xs = none) : sep ∉ xs := by
  induction xs with
  | nil => simp
  | cons c rest ih =>
    unfold splitFirst at h
    by_cases hc : c = sep
    · rw [if_pos hc] at h; exact absurd h (by simp)
    · rw [if_neg hc] at h
      cases hsf : splitFirst sep rest with
      | none =>
        simp only [List.mem_cons, not_or]
        exact ⟨fun hcs => hc hcs.symm, ih hsf⟩
      | some ab => rw [hsf] at h; exact absurd h (by simp)

theorem splitFirst_of_not_mem (sep : Char) (xs : List Char)
    (h : sep ∉ xs) : splitFirst sep xs = none := by
  induction xs with
  | nil => rfl
  | cons c rest ih =>
    simp only [List.mem_cons, not_or] at h
    unfold splitFirst
    rw [if_neg (fun hc => h.1 hc.symm), ih h.2]

theorem splitFirst_append_sep (sep : Char) (a b : List Char) (ha : sep ∉ a) :
    splitFirst sep (a ++ sep :: b) = some (a, b) := by
  induction a with
  | nil => simp [splitFirst]
  | cons c rest ih =>
    simp only [List.mem_cons, not_or] at ha
    rw [List.cons_append]
    unfold splitFirst
    rw [if_neg (fun hc => ha.1 hc.symm), ih ha.2]

theorem schemeSplit_eq (u : List Char) :
    schemeSplit u =
      (match splitFirst ':' u with
       | some (pre, post) =>
         if !pre.isEmpty && pre.all isSchemeChar then (lowerStr pre, post) else ([], u)
       | none => ([], u)) := rfl

theorem schemeSplit_snd_suffix (u : List Char) : ∃ a, u = a ++ (schemeSplit u).2 := by
  rw [schemeSplit_eq]
  cases hsf : splitFirst ':' u with
  | none => exact ⟨[], rfl⟩
  | some ab =>
    rcases ab with ⟨pre, post⟩
    by_cases hok : (!pre.isEmpty && pre.all isSchemeChar) = true
    · simp only [hok, if_true]
      exact ⟨pre ++ [':'], by simpa using (splitFirst_eq ':' u pre post hsf).1⟩
    · simp only [Bool.not_eq_true] at hok
      simp only [hok, if_false]
      exact ⟨[], rfl⟩

theorem netlocSplit_infix (u1 : List Char) :
    ∃ a b, u1 = a ++ (netlocSplit u1).1 ++ b := by
  unfold netlocSplit
  by_cases h2 : u1.take 2 = ['/', '/']
  · rw [if_pos h2]
    refine ⟨['/', '/'], (u1.drop 2).dropWhile (fun c => !netEnd c), ?_⟩
    conv_lhs => rw [← List.take_append_drop 2 u1]
    rw [h2]
    simp [List.takeWhile_append_dropWhile]
  · rw [if_neg h2]
    exact ⟨[], u1, by simp⟩

/-- Remainder of the URL after the scheme step. -/
def su1 (u : List Char) : List Char := (schemeSplit u).2

/-- The netloc component of `urlsplit`. -/
def sNetloc (u : List Char) : List Char := (netlocSplit (su1 u)).1

/-- Remainder after the netloc step. -/
def su2 (u : List Char) : List Char := (netlocSplit (su1 u)).2

/-- Remainder after the fragment step. -/
def su3 (u : List Char) : List Char := (fragSplit (su2 u)).1

/-- The fragment component of `urlsplit`. -/
def sFrag (u : List Char) : List Char := (fragSplit (su2 u)).2

/-- The path component of `urlsplit`. -/
def sPath (u : List Char) : List Char := (querySplit (su3 u)).1

/-- The query component of `urlsplit`. -/
def sQuery (u : List Char) : List Char := (querySplit (su3 u)).2

theorem pyUrlsplit_eq (u : List Char) :
    pyUrlsplit u =
      if badBrackets (sNetloc u) then Except.error UErr.invalidIPv6
      else Except.ok ⟨(schemeSplit u).1, sNetloc u, sPath u, sQuery u, sFrag u⟩ := rfl

/-- The path component of `urlparse` (after `_splitparams`). -/
def pPath (u : List Char) : List Char :=
  (if ';' ∈ sPath u then pySplitParams (sPath u) else (sPath u, [])).1

/-- The params component of `urlparse`. -/
def pParams (u : List Char) : List Char :=
  (if ';' ∈ sPath u then pySplitParams (sPath u) else (sPath u, [])).2

theorem pyUrlparse_eq (u : List Char) :
    pyUrlparse u =
      if badBrackets (sNetloc u) then Except.error UErr.invalidIPv6
      else Except.ok ⟨(schemeSplit u).1, sNetloc u, pPath u, pParams u, sQuery u, sFrag u⟩ := by
  unfold pyUrlparse
  rw [pyUrlsplit_eq]
  by_cases hb : badBrackets (sNetloc u)
  · rw [if_pos hb, if_pos hb]
    rfl
  · rw [if_neg hb, if_neg hb]
    rfl

theorem pyUrlparse_ok_netloc (u : List Char) (p : UrlParseResult)
    (h : pyUrlparse u = Except.ok p) : p.netloc = sNetloc u := by
  rw [pyUrlparse_eq] at h
  by_cases hb : badBrackets (sNetloc u)
  · rw [if_pos hb] at h
    exact absurd h (by simp)
  · rw [if_neg hb] at h
    injection h with h
    subst h
    rfl

/-! ## Substring-test lemmas -/

theorem containsSub_iff (sub s : List Char) :
    containsSub sub s = true ↔ ∃ a b, s = a ++ sub ++ b := by
  unfold containsSub
  rw [List.any_eq_true]
  constructor
  · rintro ⟨t, ht, hp⟩
    rw [List.mem_tails] at ht
    rw [List.isPrefixOf_iff_prefix] at hp
    rcases ht with ⟨a, ha⟩
    rcases hp with ⟨b, hb⟩
    exact ⟨a, b, by rw [← ha, ← hb]; simp⟩
  · rintro ⟨a, b, rfl⟩
    refine ⟨sub ++ b, ?_, ?_⟩
    · rw [List.mem_tails]
      exact ⟨a, by simp⟩
    · rw [List.isPrefixOf_iff_prefix]
      exact ⟨b, rfl⟩

theorem containsSub_of_middle (sub mid a b : List Char)
    (h : containsSub sub mid = true) :
    containsSub sub (a ++ mid ++ b) = true := by
  rw [containsSub_iff] at h ⊢
  rcases h with ⟨x, y, rfl⟩
  exact ⟨a ++ x, y ++ b, by simp⟩

theorem sNetloc_infix (u : List Char) : ∃ a b, u = a ++ sNetloc u ++ b := by
  rcases schemeSplit_snd_suffix u with ⟨a0, h0⟩
  rcases netlocSplit_infix (su1 u) with ⟨a1, b1, h1⟩
  refine ⟨a0 ++ a1, b1, ?_⟩
  have h1s : (schemeSplit u).2 = a1 ++ sNetloc u ++ b1 := h1
  conv_lhs => rw [h0, h1s]
  simp

/-- Every mismatch record emitted by the result-processing loop has a
reference URL that does not contain `web.archive.org` as a substring. -/
theorem processResults_no_archive (results : List (String × String)) (ids : List Int)
    (ms : List MismatchRecord) (h : processResults results ids = Except.ok ms)
    (m : MismatchRecord) (hm : m ∈ ms) :
    containsSub archiveMark m.url2.data = false := by
  induction results generalizing ids ms with
  | nil =>
    simp only [processResults] at h
    injection h with h
    subst h
    simp at hm
  | cons r rs ih =>
    rcases r with ⟨v1, v2⟩
    cases ids with
    | nil =>
      simp only [processResults] at h
      exact absurd h (by simp)
    | cons i rest =>
      simp only [processResults] at h
      by_cases ha : containsSub archiveMark v2.data = true
      · rw [if_pos ha] at h
        exact ih rest ms h hm
      · rw [if_neg ha] at h
        cases hc : compare_urls v1 v2 with
        | error e => rw [hc] at h; exact absurd h (by simp)
        | ok r =>
          rw [hc] at h
          dsimp only [] at h
          cases ht : processResults rs rest with
          | error e =>
            rw [ht] at h
            exact absurd h (by simp)
          | ok tail =>
            rw [ht] at h
            dsimp only [] at h
            by_cases hr : r.1 = true
            · rw [if_pos hr] at h
              injection h with h
              subst h
              exact ih rest tail ht hm
            · rw [if_neg hr] at h
              injection h with h
              subst h
              rcases List.mem_cons.mp hm with hmh | hmt
              · subst hmh
                simpa using ha
              · exact ih rest tail ht hmt

/-- C6: a pair whose resolved reference URL's host (netloc) contains
`web.archive.org` is skipped by the orchestrator loop, and consequently no
record of the mismatch output has such a host: for every record in the
output, the parsed host of its reference URL does not contain
`web.archive.org`. -/
theorem c6_archive_exempt (results : List (String × String)) (ids : List Int)
    (ms : List MismatchRecord) (h : processResults results ids = Except.ok ms)
    (m : MismatchRecord) (hm : m ∈ ms) (p : UrlParseResult)
    (hp : pyUrlparse m.url2.data = Except.ok p) :
    containsSub archiveMark p.netloc = false := by
  cases hcs : containsSub archiveMark p.netloc with
  | false => rfl
  | true =>
    have hn := pyUrlparse_ok_netloc m.url2.data p hp
    rcases sNetloc_infix m.url2.data with ⟨a, b, hab⟩
    have harc : containsSub archiveMark m.url2.data = true := by
      rw [hab, ← hn]
      exact containsSub_of_middle _ _ _ _ hcs
    rw [processResults_no_archive results ids ms h m hm] at harc
    exact absurd harc (by simp)

/-- Witness for C6: a concrete run whose only pair has an archive-hosted
reference URL with a different path produces no mismatch records; applying
the theorem to a run that does emit a record is shown with a non-archive
host. -/
theorem c6_witness :
    containsSub archiveMark
      (match pyUrlparse "http://b.example/y".data with
       | Except.ok p => p.netloc
       | Except.error _ => archiveMark) = false ∧
    processResults [("http://a.example/x", "http://web.archive.org/ex/y")] [7] =
      Except.ok [] :=
  ⟨c6_archive_exempt [("http://a.example/x", "http://b.example/y")] [3]
      _ rfl _ (List.mem_singleton.mpr rfl) _ rfl,
   rfl⟩

/-! ## C1: Resolver output shape on blank and non-blank inputs -/

theorem verifyUrlsF_fuel (net : String → NetOutcome) :
    ∀ f g (xs ys : List String), xs.length ≤ f → xs.length ≤ g →
      verifyUrlsF net f xs ys = verifyUrlsF net g xs ys := by
  intro f
  induction f with
  | zero =>
    intro g xs ys h1 _
    have hx : xs = [] := List.eq_nil_of_length_eq_zero (Nat.le_zero.mp h1)
    subst hx
    cases g <;> rfl
  | succ f ih =>
    intro g xs ys h1 h2
    cases xs with
    | nil => cases g <;> rfl
    | cons s ss =>
      cases g with
      | zero => simp at h2
      | succ g =>
        simp only [verifyUrlsF]
        congr 1
        refine ih g ((s :: ss).drop 50) (ys.drop 50) ?_ ?_ <;>
          · simp only [List.length_drop, List.length_cons] at *
            omega

theorem verifyUrls_cons (net : String → NetOutcome) (s : String) (ss ys : List String) :
    verifyUrls net (s :: ss) ys =
      batchPairs net ((s :: ss).take 50) (ys.take 50) ++
        verifyUrls net ((s :: ss).drop 50) (ys.drop 50) := by
  unfold verifyUrls
  simp only [List.length_cons, verifyUrlsF]
  congr 1
  refine verifyUrlsF_fuel net ss.length _ _ _ ?_ (le_refl _)
  simp only [List.length_drop, List.length_cons]
  omega

theorem batchPairs_all_nonblank (net : String → NetOutcome) (bs bl : List String)
    (hb : ∀ s ∈ bs, (pyStripStr s).isEmpty = false)
    (hl : ∀ s ∈ bl, (pyStripStr s).isEmpty = false) :
    batchPairs net bs bl =
      (bs.map fun s => strip_tracking_params (fetchS net s)).zip (bl.map (fetchS net)) := by
  unfold batchPairs
  rw [List.filter_eq_self.mpr (fun s hs => by rw [hb s hs]; rfl),
      List.filter_eq_self.mpr (fun s hs => by rw [hl s hs]; rfl)]
  dsimp only
  rw [List.map_map]
  rfl

theorem verifyUrlsF_all_nonblank (net : String → NetOutcome) :
    ∀ f (xs ys : List String), xs.length ≤ f → xs.length = ys.length →
      (∀ s ∈ xs, (pyStripStr s).isEmpty = false) →
      (∀ s ∈ ys, (pyStripStr s).isEmpty = false) →
      verifyUrlsF net f xs ys =
        (xs.map fun s => strip_tracking_params (fetchS net s)).zip (ys.map (fetchS net)) := by
  intro f
  induction f with
  | zero =>
    intro xs ys h1 hlen _ _
    have hx : xs = [] := List.eq_nil_of_length_eq_zero (Nat.le_zero.mp h1)
    subst hx
    have hy : ys = [] := List.eq_nil_of_length_eq_zero (by omega)
    subst hy
    rfl
  | succ f ih =>
    intro xs ys h1 hlen hbx hby
    cases xs with
    | nil =>
      have hy : ys = [] := List.eq_nil_of_length_eq_zero (by simp at hlen; omega)
      subst hy
      rfl
    | cons s ss =>
      simp only [verifyUrlsF]
      rw [batchPairs_all_nonblank net _ _
            (fun x hx => hbx x (List.take_subset 50 (s :: ss) hx))
            (fun x hx => hby x (List.take_subset 50 ys hx)),
          ih ((s :: ss).drop 50) (ys.drop 50)
            (by simp only [List.length_drop, List.length_cons] at *; omega)
            (by simp only [List.length_drop]; omega)
            (fun x hx => hbx x (List.drop_subset 50 (s :: ss) hx))
            (fun x hx => hby x (List.drop_subset 50 ys hx))]
      rw [List.map_take, List.map_take, List.map_drop, List.map_drop,
          ← List.zip_append (by simp only [List.length_take, List.length_map]; omega),
          List.take_append_drop, List.take_append_drop]

/-- C1 counterexample: the claim says the Resolver returns exactly one output
per input, with blank entries passed through unresolved.  On the singleton
whitespace-only input the code instead filters the entry out before
fetching, so the output is empty. -/
theorem c1_counterexample :
    (verifyUrls netTimeout [" "] [" "]).length ≠ ([" "] : List String).length := by
  decide

/-- C1 amended: blank/whitespace-only entries are *dropped* (filtered out
before fetching), not passed through; each batch zips only the non-blank
fetches of the two slices, so output positions correspond to input positions
only when no blanks occur.  For equal-length inputs in which every entry of
both lists is non-blank, the Resolver returns exactly one pair per input
index, in order: pair `i` is the canonicalized resolved short URL and the
resolved long URL of inputs at position `i`, and the output length equals
the input length. -/
theorem c1_amended (net : String → NetOutcome) (xs ys : List String)
    (hlen : xs.length = ys.length)
    (hbx : ∀ s ∈ xs, pyStripStr s ≠ "")
    (hby : ∀ s ∈ ys, pyStripStr s ≠ "") :
    verifyUrls net xs ys =
      (xs.map fun s => strip_tracking_params (fetchS net s)).zip (ys.map (fetchS net)) ∧
    (verifyUrls net xs ys).length = xs.length := by
  have hbx' : ∀ s ∈ xs, (pyStripStr s).isEmpty = false := by
    intro s hs
    cases hsi : (pyStripStr s).isEmpty
    · rfl
    · exact absurd ((String.isEmpty_iff _).mp hsi) (hbx s hs)
  have hby' : ∀ s ∈ ys, (pyStripStr s).isEmpty = false := by
    intro s hs
    cases hsi : (pyStripStr s).isEmpty
    · rfl
    · exact absurd ((String.isEmpty_iff _).mp hsi) (hby s hs)
  have hmain := verifyUrlsF_all_nonblank net xs.length xs ys (le_refl _) hlen hbx' hby'
  refine ⟨hmain, ?_⟩
  unfold verifyUrls
  rw [hmain]
  simp only [List.length_zip, List.length_map]
  omega

/-- Witness for C1 (amended) on concrete singleton non-blank inputs. -/
theorem c1_witness :
    verifyUrls netTimeout ["http://a.example"] ["http://b.example"] =
      ((["http://a.example"] : List String).map fun s =>
        strip_tracking_params (fetchS netTimeout s)).zip
        ((["http://b.example"] : List String).map (fetchS netTimeout)) ∧
    (verifyUrls netTimeout ["http://a.example"] ["http://b.example"]).length =
      (["http://a.example"] : List String).length :=
  c1_amended netTimeout ["http://a.example"] ["http://b.example"] rfl
    (by decide) (by decide)

/-! ## C4 development, step 1: `rstrip` lemmas -/

theorem rstripSlashes_nil : rstripSlashes [] = [] := rfl

theorem rstripSlashes_snoc (a : List Char) (c : Char) :
    rstripSlashes (a ++ [c]) = if c = '/' then rstripSlashes a else a ++ [c] := by
  unfold rstripSlashes
  rw [List.reverse_append]
  simp only [List.reverse_cons, List.reverse_nil, List.nil_append, List.singleton_append,
    List.dropWhile_cons]
  by_cases hc : c = '/'
  · rw [if_pos hc]
    simp [hc]
  · rw [if_neg hc]
    simp only [show (c == '/') = false by simpa using hc]
    simp

theorem rstripSlashes_append (a b : List Char) :
    rstripSlashes (a ++ b) =
      if rstripSlashes b = [] then rstripSlashes a else a ++ rstripSlashes b := by
  induction b using List.reverseRecOn with
  | nil => simp [rstripSlashes_nil]
  | append_singleton bs c ih =>
    rw [← List.append_assoc, rstripSlashes_snoc, rstripSlashes_snoc]
    by_cases hc : c = '/'
    · rw [if_pos hc, if_pos hc, ih]
    · rw [if_neg hc, if_neg hc, if_neg (by simp)]
      simp

theorem rstripSlashes_no_slash (s : List Char) (h : '/' ∉ s) :
    rstripSlashes s = s := by
  induction s using List.reverseRecOn with
  | nil => rfl
  | append_singleton bs c ih =>
    rw [rstripSlashes_snoc, if_neg (fun hc => h (by simp [hc]))]

theorem rstripSlashes_through (a b : List Char) (c : Char) (hc : c ≠ '/') :
    rstripSlashes (a ++ c :: b) = a ++ c :: rstripSlashes b := by
  rw [show a ++ c :: b = (a ++ [c]) ++ b by simp, rstripSlashes_append]
  by_cases hb : rstripSlashes b = []
  · rw [if_pos hb, rstripSlashes_snoc, if_neg hc, hb]
  · rw [if_neg hb]
    simp

theorem rstripSlashes_eq_nil_iff (s : List Char) :
    rstripSlashes s = [] ↔ ∀ c ∈ s, c = '/' := by
  induction s using List.reverseRecOn with
  | nil => simp [rstripSlashes_nil]
  | append_singleton bs c ih =>
    rw [rstripSlashes_snoc]
    by_cases hc : c = '/'
    · rw [if_pos hc, ih]
      subst hc
      constructor
      · intro h x hx
        rcases List.mem_append.mp hx with hx | hx
        · exact h x hx
        · simpa using hx
      · intro h x hx
        exact h x (List.mem_append.mpr (Or.inl hx))
    · rw [if_neg hc]
      constructor
      · intro h
        exact absurd h (by simp)
      · intro h
        exact absurd (h c (List.mem_append.mpr (Or.inr (by simp)))) hc

theorem rstripSlashes_idem (s : List Char) :
    rstripSlashes (rstripSlashes s) = rstripSlashes s := by
  induction s using List.reverseRecOn with
  | nil => rfl
  | append_singleton bs c ih =>
    rw [rstripSlashes_snoc]
    by_cases hc : c = '/'
    · rw [if_pos hc]
      exact ih
    · rw [if_neg hc, rstripSlashes_snoc, if_neg hc]

theorem rstripSlashes_prefix (s : List Char) : ∃ t, s = rstripSlashes s ++ t := by
  induction s using List.reverseRecOn with
  | nil => exact ⟨[], rfl⟩
  | append_singleton bs c ih =>
    rw [rstripSlashes_snoc]
    by_cases hc : c = '/'
    · rcases ih with ⟨t, ht⟩
      rw [if_pos hc]
      exact ⟨t ++ [c], by rw [← List.append_assoc, ← ht]⟩
    · rw [if_neg hc]
      exact ⟨[], by simp⟩

theorem rstripSlashes_sub (s : List Char) (c : Char) (h : c ∈ rstripSlashes s) : c ∈ s := by
  rcases rstripSlashes_prefix s with ⟨t, ht⟩
  rw [ht]
  exact List.mem_append.mpr (Or.inl h)

/-- The last element of a nonempty `rstripSlashes` result is not a slash. -/
theorem rstripSlashes_last (s : List Char) (h : rstripSlashes s ≠ []) :
    ∃ a c, rstripSlashes s = a ++ [c] ∧ c ≠ '/' := by
  induction s using List.reverseRecOn with
  | nil => exact absurd rfl h
  | append_singleton bs c ih =>
    rw [rstripSlashes_snoc] at h ⊢
    by_cases hc : c = '/'
    · rw [if_pos hc] at h ⊢
      exact ih h
    · rw [if_neg hc]
      exact ⟨bs, c, rfl, hc⟩

/-! ## C4 development, step 2: fuel invariance and step equations -/

theorem tokenizeQF_nil (f : Nat) : tokenizeQF f [] = [] := by
  cases f <;> rfl

theorem tokenizeQF_fuel : ∀ (f : Nat) (xs : List Char), xs.length ≤ f →
    ∀ g, xs.length ≤ g → tokenizeQF f xs = tokenizeQF g xs := by
  intro f xs
  induction f, xs using tokenizeQF.induct with
  | case1 xs =>
    intro h1 g h2
    have : xs = [] := List.eq_nil_of_length_eq_zero (Nat.le_zero.mp h1)
    subst this
    cases g <;> rfl
  | case2 f =>
    intro _ g _
    cases g <;> rfl
  | case3 f a b rest2 hhex ih =>
    intro h1 g h2
    cases g with
    | zero => simp at h2
    | succ g =>
      simp only [tokenizeQF, if_pos rfl, hhex, if_true]
      simp only [List.length_cons] at h1 h2
      rw [ih (by omega) g (by omega)]
  | case4 f a b rest2 hhex ih =>
    intro h1 g h2
    cases g with
    | zero => simp at h2
    | succ g =>
      simp only [tokenizeQF, if_pos rfl]
      rw [show (isHexDigitChar a && isHexDigitChar b) = false by simpa using hhex]
      simp only [if_false, Bool.false_eq_true]
      simp only [List.length_cons] at h1 h2
      rw [ih (by simp only [List.length_cons]; omega) g (by simp only [List.length_cons]; omega)]
  | case5 f rest hshape ih =>
    intro h1 g h2
    cases g with
    | zero => simp at h2
    | succ g =>
      simp only [List.length_cons] at h1 h2
      cases rest with
      | nil =>
        simp only [tokenizeQF, if_pos rfl, tokenizeQF_nil]
      | cons a rest' =>
        cases rest' with
        | nil =>
          simp only [tokenizeQF, if_pos rfl]
          simp only [List.length_cons] at h1 h2
          rw [ih (by simp only [List.length_cons]; omega) g
            (by simp only [List.length_cons]; omega)]
        | cons b rest2 => exact (hshape a b rest2 rfl).elim
  | case6 f c rest hc ha ih =>
    intro h1 g h2
    cases g with
    | zero => simp at h2
    | succ g =>
      simp only [tokenizeQF, if_neg hc, if_pos ha]
      simp only [List.length_cons] at h1 h2
      rw [ih (by omega) g (by omega)]
  | case7 f c rest hc ha ih =>
    intro h1 g h2
    cases g with
    | zero => simp at h2
    | succ g =>
      simp only [tokenizeQF, if_neg hc, if_neg ha]
      simp only [List.length_cons] at h1 h2
      rw [ih (by omega) g (by omega)]

theorem decodeStep_congr (rec1 rec2 : List QTok → List Char) (ts : List QTok)
    (h : ∀ sub : List QTok, sub.length < ts.length → rec1 sub = rec2 sub) :
    decodeStep rec1 ts = decodeStep rec2 ts := by
  cases ts with
  | nil => rfl
  | cons t ts' =>
    cases t with
    | chr c =>
      show c :: rec1 ts' = c :: rec2 ts'
      rw [h ts' (by simp)]
    | byte b =>
      simp only [decodeStep]
      repeat' split
      all_goals congr 1
      all_goals apply h
      all_goals simp_all [List.length_cons]
      all_goals omega

theorem decodeToksF_fuel : ∀ (f g : Nat) (ts : List QTok), ts.length ≤ f →
    ts.length ≤ g → decodeToksF f ts = decodeToksF g ts := by
  intro f
  induction f with
  | zero =>
    intro g ts h1 _
    have : ts = [] := List.eq_nil_of_length_eq_zero (Nat.le_zero.mp h1)
    subst this
    cases g <;> rfl
  | succ f ih =>
    intro g ts h1 h2
    cases g with
    | zero =>
      have : ts = [] := List.eq_nil_of_length_eq_zero (Nat.le_zero.mp h2)
      subst this
      rfl
    | succ g =>
      show decodeStep (decodeToksF f) ts = decodeStep (decodeToksF g) ts
      refine decodeStep_congr _ _ ts fun sub hsub => ih g sub (by omega) (by omega)

theorem decodeToks_step (ts : List QTok) : decodeToks ts = decodeStep decodeToks ts := by
  unfold decodeToks
  cases ts with
  | nil => rfl
  | cons t ts' =>
    show decodeStep (decodeToksF (t :: ts').length.pred) (t :: ts') = _
    refine decodeStep_congr _ _ _ fun sub hsub => ?_
    exact decodeToksF_fuel _ _ sub (by simp_all [List.length_cons]; omega) (le_refl _)

theorem tokenizeQ_nil : tokenizeQ [] = [] := rfl

theorem tokenizeQ_percent (a b : Char) (rest : List Char)
    (h : (isHexDigitChar a && isHexDigitChar b) = true) :
    tokenizeQ ('%' :: a :: b :: rest) =
      QTok.byte (hexVal a * 16 + hexVal b) :: tokenizeQ rest := by
  unfold tokenizeQ
  simp only [List.length_cons, tokenizeQF, if_pos rfl, h, if_true]
  rw [tokenizeQF_fuel (rest.length + 1 + 1) rest (by omega) rest.length (le_refl _)]

theorem tokenizeQ_ascii (c : Char) (rest : List Char) (hc : c ≠ '%')
    (ha : c.toNat < 128) :
    tokenizeQ (c :: rest) = QTok.byte c.toNat :: tokenizeQ rest := by
  unfold tokenizeQ
  simp only [List.length_cons, tokenizeQF, if_neg hc, if_pos ha]

theorem tokenizeQ_chr (c : Char) (rest : List Char) (hc : c ≠ '%')
    (ha : ¬c.toNat < 128) :
    tokenizeQ (c :: rest) = QTok.chr c :: tokenizeQ rest := by
  unfold tokenizeQ
  simp only [List.length_cons, tokenizeQF, if_neg hc, if_neg ha]

/-! ## C4 development, step 3: hex digits and the UTF-8 round trip -/

theorem hexDigitUpper_isHex (m : Nat) (h : m < 16) :
    isHexDigitChar (hexDigitUpper m) = true := by
  interval_cases m <;> decide

theorem hexVal_hexDigitUpper (m : Nat) (h : m < 16) : hexVal (hexDigitUpper m) = m := by
  interval_cases m <;> decide

theorem hexDigitUpper_ne_plus (m : Nat) (h : m < 16) : hexDigitUpper m ≠ '+' := by
  interval_cases m <;> decide

theorem hexDigitUpper_classes (m : Nat) (h : m < 16) :
    (alwaysSafeChar (hexDigitUpper m) || isHexDigitChar (hexDigitUpper m)) = true := by
  interval_cases m <;> decide

/-- Tokenizing a percent-encoded byte list followed by anything else. -/
theorem tokenizeQ_percentBytes (bs : List Nat) (hbs : ∀ b ∈ bs, b < 256)
    (rest : List Char) :
    tokenizeQ ((bs.map percentByte).flatten ++ rest) =
      bs.map QTok.byte ++ tokenizeQ rest := by
  induction bs with
  | nil => simp
  | cons b bs' ih =>
    have hb : b < 256 := hbs b (by simp)
    have hhi : b / 16 < 16 := by omega
    have hlo : b % 16 < 16 := by omega
    simp only [List.map_cons, List.flatten_cons, percentByte, List.cons_append,
      List.append_assoc]
    rw [tokenizeQ_percent _ _ _
      (by rw [hexDigitUpper_isHex _ hhi, hexDigitUpper_isHex _ hlo]; rfl)]
    rw [hexVal_hexDigitUpper _ hhi, hexVal_hexDigitUpper _ hlo, List.nil_append,
      ih (fun x hx => hbs x (by simp [hx]))]
    congr 2
    omega

theorem encodeScalar_bytes_lt (n : Nat) (h : n < 1114112) :
    ∀ b ∈ encodeScalar n, b < 256 := by
  intro b hb
  unfold encodeScalar at hb
  split_ifs at hb <;> simp at hb <;> omega

set_option maxRecDepth 4000 in
/-- Decoding the UTF-8 encoding of a valid scalar recovers the character. -/
theorem decodeToks_encodeScalar (c : Char) (ts : List QTok) :
    decodeToks ((encodeScalar c.toNat).map QTok.byte ++ ts) = c :: decodeToks ts := by
  have hv : c.toNat.isValidChar := c.valid
  rcases hv with hv | hv
  all_goals
    unfold encodeScalar
  · by_cases h1 : c.toNat < 128
    · rw [if_pos h1]
      simp only [List.map_cons, List.map_nil, List.singleton_append]
      rw [decodeToks_step]
      simp only [decodeStep]
      rw [if_pos h1, Char.ofNat_toNat]
    · rw [if_neg h1]
      by_cases h2 : c.toNat < 2048
      · rw [if_pos h2]
        simp only [List.map_cons, List.map_nil, List.cons_append, List.nil_append]
        rw [decodeToks_step]
        simp only [decodeStep]
        rw [if_neg (by omega), if_pos (by simp only [Bool.and_eq_true, decide_eq_true_eq]; omega),
          if_pos (by simp only [isCont, Bool.and_eq_true, decide_eq_true_eq]; omega)]
        congr 1
        have : (192 + c.toNat / 64 - 192) * 64 + (128 + c.toNat % 64 - 128) = c.toNat := by
          omega
        rw [this, Char.ofNat_toNat]
      · rw [if_neg h2, if_pos (by omega)]
        simp only [List.map_cons, List.map_nil, List.cons_append, List.nil_append]
        rw [decodeToks_step]
        simp only [decodeStep]
        rw [if_neg (by omega), if_neg (by simp only [Bool.and_eq_true, decide_eq_true_eq]; omega),
          if_pos (by simp only [Bool.and_eq_true, decide_eq_true_eq]; omega),
          if_pos (by
            simp only [isCont2, cont2Lo, cont2Hi, Bool.and_eq_true, decide_eq_true_eq]
            split_ifs <;> omega),
          if_pos (by simp only [isCont, Bool.and_eq_true, decide_eq_true_eq]; omega)]
        congr 1
        have : (224 + c.toNat / 4096 - 224) * 4096 + (128 + c.toNat / 64 % 64 - 128) * 64 +
            (128 + c.toNat % 64 - 128) = c.toNat := by
          omega
        rw [this, Char.ofNat_toNat]
  · rcases hv with ⟨hlo, hhi⟩
    by_cases h3 : c.toNat < 65536
    · rw [if_neg (by omega), if_neg (by omega), if_pos h3]
      simp only [List.map_cons, List.map_nil, List.cons_append, List.nil_append]
      rw [decodeToks_step]
      simp only [decodeStep]
      rw [if_neg (by omega), if_neg (by simp only [Bool.and_eq_true, decide_eq_true_eq]; omega),
        if_pos (by simp only [Bool.and_eq_true, decide_eq_true_eq]; omega),
        if_pos (by
          simp only [isCont2, cont2Lo, cont2Hi, Bool.and_eq_true, decide_eq_true_eq]
          split_ifs <;> omega),
        if_pos (by simp only [isCont, Bool.and_eq_true, decide_eq_true_eq]; omega)]
      congr 1
      have : (224 + c.toNat / 4096 - 224) * 4096 + (128 + c.toNat / 64 % 64 - 128) * 64 +
          (128 + c.toNat % 64 - 128) = c.toNat := by
        omega
      rw [this, Char.ofNat_toNat]
    · rw [if_neg (by omega), if_neg (by omega), if_neg h3]
      simp only [List.map_cons, List.map_nil, List.cons_append, List.nil_append]
      rw [decodeToks_step]
      simp only [decodeStep]
      rw [if_neg (by omega), if_neg (by simp only [Bool.and_eq_true, decide_eq_true_eq]; omega),
        if_neg (by simp only [Bool.and_eq_true, decide_eq_true_eq]; omega),
        if_pos (by simp only [Bool.and_eq_true, decide_eq_true_eq]; omega),
        if_pos (by
          simp only [isCont2, cont2Lo, cont2Hi, Bool.and_eq_true, decide_eq_true_eq]
          split_ifs <;> omega),
        if_pos (by simp only [isCont, Bool.and_eq_true, decide_eq_true_eq]; omega),
        if_pos (by simp only [isCont, Bool.and_eq_true, decide_eq_true_eq]; omega)]
      congr 1
      have : (240 + c.toNat / 262144 - 240) * 262144 + (128 + c.toNat / 4096 % 64 - 128) * 4096 +
          (128 + c.toNat / 64 % 64 - 128) * 64 + (128 + c.toNat % 64 - 128) = c.toNat := by
        omega
      rw [this, Char.ofNat_toNat]

/-! ## C4 development, step 4: the `quote_plus` / `unquote` round trip -/

theorem char_le_toNat {a c : Char} (h : a ≤ c) : a.toNat ≤ c.toNat := by
  rw [Char.le_def, UInt32.le_def] at h
  simp only [Char.toNat]
  exact_mod_cast h

theorem alwaysSafeChar_facts (c : Char) (h : alwaysSafeChar c = true) :
    c.toNat < 128 ∧ c ≠ '%' ∧ c ≠ '+' ∧ c ≠ ' ' := by
  simp only [alwaysSafeChar, Bool.or_eq_true, Bool.and_eq_true, decide_eq_true_eq,
    beq_iff_eq] at h
  have hlt : c.toNat < 128 ∧ c.toNat ≠ 37 ∧ c.toNat ≠ 43 ∧ c.toNat ≠ 32 := by
    have eA : ('A').toNat = 65 := rfl
    have eZ : ('Z').toNat = 90 := rfl
    have ea : ('a').toNat = 97 := rfl
    have ez : ('z').toNat = 122 := rfl
    have e0 : ('0').toNat = 48 := rfl
    have e9 : ('9').toNat = 57 := rfl
    rcases h with (((((⟨h1, h2⟩ | ⟨h1, h2⟩) | ⟨h1, h2⟩) | h) | h) | h) | h
    · have := char_le_toNat h1
      have := char_le_toNat h2
      refine ⟨by omega, by omega, by omega, by omega⟩
    · have := char_le_toNat h1
      have := char_le_toNat h2
      refine ⟨by omega, by omega, by omega, by omega⟩
    · have := char_le_toNat h1
      have := char_le_toNat h2
      refine ⟨by omega, by omega, by omega, by omega⟩
    all_goals subst h
    all_goals refine ⟨by decide, by decide, by decide, by decide⟩
  refine ⟨hlt.1, ?_, ?_, ?_⟩
  · intro hc; subst hc; exact hlt.2.1 rfl
  · intro hc; subst hc; exact hlt.2.2.1 rfl
  · intro hc; subst hc; exact hlt.2.2.2 rfl

/-- `'+'` never occurs in a percent-encoded byte sequence. -/
theorem plus_not_mem_percentBytes (bs : List Nat) (hbs : ∀ b ∈ bs, b < 256) :
    '+' ∉ (bs.map percentByte).flatten := by
  intro hmem
  rw [List.mem_flatten] at hmem
  rcases hmem with ⟨l, hl, hcl⟩
  rw [List.mem_map] at hl
  rcases hl with ⟨b, hb, rfl⟩
  have hb256 := hbs b hb
  simp only [percentByte, List.mem_cons, List.not_mem_nil, or_false] at hcl
  rcases hcl with h | h | h
  · exact absurd h.symm (by decide)
  · exact absurd h.symm (hexDigitUpper_ne_plus (b / 16) (by omega))
  · exact absurd h.symm (hexDigitUpper_ne_plus (b % 16) (by omega))

/-- The `'+' -> ' '` replacement of `parse_qsl`. -/
def plusT (s : List Char) : List Char :=
  s.map fun c => if c = '+' then ' ' else c

theorem plusT_no_plus (s : List Char) (h : '+' ∉ s) : plusT s = s := by
  induction s with
  | nil => rfl
  | cons c rest ih =>
    simp only [List.mem_cons, not_or] at h
    simp only [plusT, List.map_cons]
    rw [if_neg (fun hc => h.1 hc.symm)]
    have := ih h.2
    simp only [plusT] at this
    rw [this]

theorem plusT_append (a b : List Char) : plusT (a ++ b) = plusT a ++ plusT b := by
  simp [plusT]

/-- One character of the quote/unquote round trip. -/
theorem unquote_quoteChar (c : Char) (r : List Char) :
    decodeToks (tokenizeQ (plusT (quoteChar c) ++ r)) =
      c :: decodeToks (tokenizeQ r) := by
  by_cases hsafe : alwaysSafeChar c = true
  · rcases alwaysSafeChar_facts c hsafe with ⟨hlt, hpc, hplus, _⟩
    rw [show quoteChar c = [c] by simp [quoteChar, hsafe]]
    rw [plusT_no_plus [c] (by simpa using fun hc => hplus hc.symm)]
    rw [List.singleton_append, tokenizeQ_ascii c r hpc hlt, decodeToks_step]
    simp only [decodeStep]
    rw [if_pos hlt, Char.ofNat_toNat]
  · by_cases hsp : c = ' '
    · subst hsp
      have hq : quoteChar ' ' = ['+'] := rfl
      have hp : plusT ['+'] = [' '] := rfl
      rw [hq, hp, List.singleton_append]
      rw [tokenizeQ_ascii ' ' r (by decide) (by decide), decodeToks_step]
      simp only [decodeStep]
      rw [if_pos (by decide)]
      rfl
    · have hv : c.toNat.isValidChar := c.valid
      have hlt : c.toNat < 1114112 := by
        rcases hv with h | ⟨_, h⟩ <;> omega
      rw [show quoteChar c = ((encodeScalar c.toNat).map percentByte).flatten by
        simp [quoteChar, hsafe, hsp]]
      rw [plusT_no_plus _ (plus_not_mem_percentBytes _ (encodeScalar_bytes_lt _ hlt))]
      rw [tokenizeQ_percentBytes _ (encodeScalar_bytes_lt _ hlt) r]
      exact decodeToks_encodeScalar c (tokenizeQ r)

/-- The full round trip: `parse_qsl`-style decoding of a `quote_plus`-encoded
string recovers the string. -/
theorem unquotePlus_quotePlus (s : List Char) : unquotePlus (quotePlus s) = s := by
  have main : ∀ t : List Char,
      decodeToks (tokenizeQ (plusT (quotePlus t))) = t := by
    intro t
    induction t with
    | nil => rfl
    | cons c rest ih =>
      rw [show quotePlus (c :: rest) = quoteChar c ++ quotePlus rest by
            simp [quotePlus],
          plusT_append, unquote_quoteChar c (plusT (quotePlus rest)), ih]
  show pyUnquote (plusT (quotePlus s)) = s
  unfold pyUnquote
  exact main s

/-! ## C4 development, step 5: `split`/`join` and `parse_qsl` of `urlencode` -/

theorem splitOnChar_cons (sep c : Char) (rest : List Char) :
    splitOnChar sep (c :: rest) =
      match splitOnChar sep rest with
      | [] => [[]]
      | h :: t => if c = sep then [] :: h :: t else (c :: h) :: t := rfl

theorem splitOnChar_ne_nil (sep : Char) (xs : List Char) : splitOnChar sep xs ≠ [] := by
  cases xs with
  | nil => simp [splitOnChar]
  | cons c rest =>
    rw [splitOnChar_cons]
    cases hs : splitOnChar sep rest with
    | nil => simp
    | cons h t => by_cases hc : c = sep <;> simp [hc]

theorem splitOnChar_no_sep (sep : Char) (x : List Char) (h : sep ∉ x) :
    splitOnChar sep x = [x] := by
  induction x with
  | nil => rfl
  | cons c rest ih =>
    simp only [List.mem_cons, not_or] at h
    rw [splitOnChar_cons, ih h.2]
    dsimp only
    rw [if_neg (fun hc => h.1 hc.symm)]

theorem splitOnChar_chunk (sep : Char) (x rest : List Char) (h : sep ∉ x) :
    splitOnChar sep (x ++ sep :: rest) = x :: splitOnChar sep rest := by
  induction x with
  | nil =>
    simp only [List.nil_append]
    rw [splitOnChar_cons]
    cases hs : splitOnChar sep rest with
    | nil => exact absurd hs (splitOnChar_ne_nil sep rest)
    | cons a t =>
      dsimp only
      rw [if_pos rfl]
  | cons c cx ih =>
    simp only [List.mem_cons, not_or] at h
    rw [List.cons_append, splitOnChar_cons, ih h.2]
    dsimp only
    rw [if_neg (fun hc => h.1 hc.symm)]

theorem splitOnChar_joinSep (sep : Char) (chunks : List (List Char))
    (hne : chunks ≠ []) (h : ∀ ch ∈ chunks, sep ∉ ch) :
    splitOnChar sep (joinSep sep chunks) = chunks := by
  induction chunks with
  | nil => exact absurd rfl hne
  | cons x t ih =>
    cases t with
    | nil =>
      show splitOnChar sep x = [x]
      exact splitOnChar_no_sep sep x (h x (by simp))
    | cons y t2 =>
      show splitOnChar sep (x ++ sep :: joinSep sep (y :: t2)) = x :: y :: t2
      rw [splitOnChar_chunk sep x _ (h x (by simp)),
        ih (by simp) (fun ch hch => h ch (by simp [hch]))]

theorem joinSep_mem (sep : Char) (chunks : List (List Char)) (x : Char)
    (h : x ∈ joinSep sep chunks) : x = sep ∨ ∃ ch ∈ chunks, x ∈ ch := by
  induction chunks with
  | nil => simp [joinSep] at h
  | cons a t ih =>
    cases t with
    | nil =>
      right
      exact ⟨a, by simp, h⟩
    | cons y t2 =>
      rw [show joinSep sep (a :: y :: t2) = a ++ sep :: joinSep sep (y :: t2) from rfl] at h
      rcases List.mem_append.mp h with h | h
      · exact Or.inr ⟨a, by simp, h⟩
      · rcases List.mem_cons.mp h with h | h
        · exact Or.inl h
        · rcases ih h with h | ⟨ch, hch, hx⟩
          · exact Or.inl h
          · exact Or.inr ⟨ch, by simp [hch], hx⟩

theorem quotePlus_classes (s : List Char) (x : Char) (h : x ∈ quotePlus s) :
    (alwaysSafeChar x || x == '+' || x == '%' || isHexDigitChar x) = true := by
  unfold quotePlus at h
  rw [List.mem_flatten] at h
  rcases h with ⟨l, hl, hx⟩
  rw [List.mem_map] at hl
  rcases hl with ⟨c, _, rfl⟩
  unfold quoteChar at hx
  split_ifs at hx with h1 h2
  · simp only [List.mem_singleton] at hx
    subst hx
    simp [h1]
  · simp only [List.mem_singleton] at hx
    subst hx
    rfl
  · rw [List.mem_flatten] at hx
    rcases hx with ⟨l2, hl2, hx⟩
    rw [List.mem_map] at hl2
    rcases hl2 with ⟨b, hbm, rfl⟩
    have hv : c.toNat.isValidChar := c.valid
    have hclt : c.toNat < 1114112 := by rcases hv with h | ⟨_, h⟩ <;> omega
    have hb256 : b < 256 := encodeScalar_bytes_lt c.toNat hclt b hbm
    simp only [percentByte, List.mem_cons, List.not_mem_nil, or_false] at hx
    rcases hx with rfl | rfl | rfl
    · rfl
    · rcases (Bool.or_eq_true _ _).mp (hexDigitUpper_classes (b / 16) (by omega)) with hh | hh <;>
        simp [hh]
    · rcases (Bool.or_eq_true _ _).mp (hexDigitUpper_classes (b % 16) (by omega)) with hh | hh <;>
        simp [hh]

theorem quotePlus_not_mem (χ : Char) (s : List Char)
    (h1 : alwaysSafeChar χ = false) (h2 : χ ≠ '+') (h3 : χ ≠ '%')
    (h4 : isHexDigitChar χ = false) : χ ∉ quotePlus s := by
  intro hmem
  have := quotePlus_classes s χ hmem
  rw [h1, h4, show (χ == '+') = false by simpa using h2,
    show (χ == '%') = false by simpa using h3] at this
  simp at this

/-- The flattened `(key, value)` pair list of an ordered dict. -/
def flatPairs (d : List (List Char × List (List Char))) :
    List (List Char × List Char) :=
  (d.map fun kv => kv.2.map fun v => (kv.1, v)).flatten

/-- The chunk list whose `'&'`-join is `urlencode(d, doseq=True)`. -/
def encChunks (d : List (List Char × List (List Char))) : List (List Char) :=
  (d.map fun kv => kv.2.map fun v => quotePlus kv.1 ++ '=' :: quotePlus v).flatten

theorem pyUrlencode_eq_join (d : List (List Char × List (List Char))) :
    pyUrlencode d = joinSep '&' (encChunks d) := rfl

theorem encChunk_no_amp (k v : List Char) (x : Char)
    (hx : x ∈ quotePlus k ++ '=' :: quotePlus v) : x ≠ '&' := by
  intro rfl_eq
  subst rfl_eq
  rcases List.mem_append.mp hx with h | h
  · exact quotePlus_not_mem '&' k (by decide) (by decide) (by decide) (by decide) h
  · rcases List.mem_cons.mp h with h | h
    · exact absurd h (by decide)
    · exact quotePlus_not_mem '&' v (by decide) (by decide) (by decide) (by decide) h

/-- The `parse_qsl` filter-map applied to one encoded chunk recovers the pair. -/
theorem parseQsl_chunk (k v : List Char) :
    (if (quotePlus k ++ '=' :: quotePlus v).isEmpty then none
     else match splitFirst '=' (quotePlus k ++ '=' :: quotePlus v) with
          | some (n, w) => some (unquotePlus n, unquotePlus w)
          | none => some (unquotePlus (quotePlus k ++ '=' :: quotePlus v), [])) =
      some (k, v) := by
  rw [if_neg (by simp)]
  rw [splitFirst_append_sep '=' (quotePlus k) (quotePlus v)
    (quotePlus_not_mem '=' k (by decide) (by decide) (by decide) (by decide))]
  dsimp only
  rw [unquotePlus_quotePlus, unquotePlus_quotePlus]

theorem filterMap_encChunks (d : List (List Char × List (List Char))) :
    (encChunks d).filterMap
      (fun nv =>
        if nv.isEmpty then none
        else match splitFirst '=' nv with
             | some (n, w) => some (unquotePlus n, unquotePlus w)
             | none => some (unquotePlus nv, [])) = flatPairs d := by
  unfold encChunks flatPairs
  induction d with
  | nil => rfl
  | cons kv2 d3 ih =>
    simp only [List.map_cons, List.flatten_cons, List.filterMap_append]
    rw [ih]
    congr 1
    induction kv2.2 with
    | nil => rfl
    | cons v vs ihv =>
      simp only [List.map_cons, List.filterMap_cons]
      rw [parseQsl_chunk kv2.1 v, ihv]

theorem pyParseQsl_urlencode (d : List (List Char × List (List Char)))
    (hvs : ∀ kv ∈ d, kv.2 ≠ []) :
    pyParseQsl (pyUrlencode d) = flatPairs d := by
  cases d with
  | nil => rfl
  | cons kv d' =>
    have hchunks_ne : encChunks (kv :: d') ≠ [] := by
      intro h
      unfold encChunks at h
      rw [List.flatten_eq_nil_iff] at h
      have := h (kv.2.map fun v => quotePlus kv.1 ++ '=' :: quotePlus v) (by simp)
      rw [List.map_eq_nil_iff] at this
      exact hvs kv (by simp) this
    have hnoamp : ∀ ch ∈ encChunks (kv :: d'), '&' ∉ ch := by
      intro ch hch hx
      unfold encChunks at hch
      rw [List.mem_flatten] at hch
      rcases hch with ⟨l, hl, hchl⟩
      rw [List.mem_map] at hl
      rcases hl with ⟨kv2, _, rfl⟩
      rw [List.mem_map] at hchl
      rcases hchl with ⟨v, _, rfl⟩
      exact encChunk_no_amp kv2.1 v '&' hx rfl
    unfold pyParseQsl
    rw [pyUrlencode_eq_join, splitOnChar_joinSep '&' _ hchunks_ne hnoamp]
    exact filterMap_encChunks (kv :: d')

/-! ## C4 development, step 6: `parse_qs` grouping round trip -/

theorem qsInsert_new_key (k : List Char) (v : List Char)
    (d : List (List Char × List (List Char))) (hk : k ∉ d.map Prod.fst) :
    qsInsert k v d = d ++ [(k, [v])] := by
  induction d with
  | nil => rfl
  | cons kv d' ih =>
    simp only [List.map_cons, List.mem_cons, not_or] at hk
    unfold qsInsert
    rw [if_neg (fun hc => hk.1 hc.symm), ih hk.2]
    simp

theorem qsInsert_last_key (k : List Char) (v : List Char) (vs : List (List Char))
    (d : List (List Char × List (List Char))) (hk : k ∉ d.map Prod.fst) :
    qsInsert k v (d ++ [(k, vs)]) = d ++ [(k, vs ++ [v])] := by
  induction d with
  | nil => simp [qsInsert]
  | cons kv d' ih =>
    simp only [List.map_cons, List.mem_cons, not_or] at hk
    simp only [List.cons_append]
    unfold qsInsert
    rw [if_neg (fun hc => hk.1 hc.symm), ih hk.2]

theorem foldl_qsInsert_group (k : List Char) (vs2 : List (List Char)) :
    ∀ (vs1 : List (List Char)) (acc : List (List Char × List (List Char))),
      k ∉ acc.map Prod.fst →
      (vs2.map fun v => (k, v)).foldl (fun d kv => qsInsert kv.1 kv.2 d)
          (acc ++ [(k, vs1)]) = acc ++ [(k, vs1 ++ vs2)] := by
  induction vs2 with
  | nil => intro vs1 acc _; simp
  | cons v vs2' ih =>
    intro vs1 acc hk
    simp only [List.map_cons, List.foldl_cons]
    rw [qsInsert_last_key k v vs1 acc hk, ih (vs1 ++ [v]) acc hk]
    simp

theorem foldl_qsInsert_flatPairs (d : List (List Char × List (List Char))) :
    ∀ acc : List (List Char × List (List Char)),
      (d.map Prod.fst ++ acc.map Prod.fst).Nodup →
      (∀ kv ∈ d, kv.2 ≠ []) →
      (flatPairs d).foldl (fun d2 kv => qsInsert kv.1 kv.2 d2) acc = acc ++ d := by
  induction d with
  | nil => intro acc _ _; simp [flatPairs]
  | cons kv d' ih =>
    intro acc hnodup hvs
    rcases kv with ⟨k, vs⟩
    cases vs with
    | nil => exact absurd rfl (hvs (k, []) (by simp))
    | cons v vs' =>
      have hknotacc : k ∉ acc.map Prod.fst := by
        simp only [List.map_cons, List.cons_append, List.nodup_cons] at hnodup
        intro h
        exact hnodup.1 (List.mem_append.mpr (Or.inr h))
      have hknotd' : k ∉ d'.map Prod.fst := by
        simp only [List.map_cons, List.cons_append, List.nodup_cons] at hnodup
        intro h
        exact hnodup.1 (List.mem_append.mpr (Or.inl h))
      show ((((v :: vs').map fun w => (k, w)) ++ flatPairs d').foldl
          (fun d2 kv => qsInsert kv.1 kv.2 d2) acc) = acc ++ (k, v :: vs') :: d'
      rw [List.foldl_append]
      have step1 : (((v :: vs').map fun w => (k, w)).foldl
          (fun d2 kv => qsInsert kv.1 kv.2 d2) acc) = acc ++ [(k, v :: vs')] := by
        simp only [List.map_cons, List.foldl_cons]
        rw [show qsInsert k v acc = acc ++ [(k, [v])] from qsInsert_new_key k v acc hknotacc]
        rw [foldl_qsInsert_group k vs' [v] acc hknotacc]
        rfl
      have hnodup2 : (d'.map Prod.fst ++ ((acc ++ [(k, v :: vs')]).map Prod.fst)).Nodup := by
        have hperm : List.Perm ((d'.map Prod.fst ++ acc.map Prod.fst) ++ [k])
            (k :: (d'.map Prod.fst ++ acc.map Prod.fst)) :=
          List.perm_append_singleton _ _
        have hsrc : (k :: (d'.map Prod.fst ++ acc.map Prod.fst)).Nodup := by
          simpa only [List.map_cons, List.cons_append] using hnodup
        have h2 := (hperm.nodup_iff).mpr hsrc
        rw [List.append_assoc] at h2
        simpa only [List.map_append, List.map_cons, List.map_nil] using h2
      rw [step1, ih (acc ++ [(k, v :: vs')]) hnodup2
        (fun kv2 hkv2 => hvs kv2 (by simp [hkv2]))]
      simp

theorem qsInsert_values (k v : List Char) (d : List (List Char × List (List Char)))
    (h : ∀ kv ∈ d, kv.2 ≠ []) : ∀ kv ∈ qsInsert k v d, kv.2 ≠ [] := by
  induction d with
  | nil =>
    intro kv hkv
    simp only [qsInsert, List.mem_singleton] at hkv
    subst hkv
    simp
  | cons kv0 d' ih =>
    intro kv hkv
    unfold qsInsert at hkv
    by_cases hc : kv0.1 = k
    · rw [if_pos hc] at hkv
      rcases List.mem_cons.mp hkv with rfl | hm
      · simp
      · exact h kv (by simp [hm])
    · rw [if_neg hc] at hkv
      rcases List.mem_cons.mp hkv with rfl | hm
      · exact h (kv0.1, kv0.2) (by simp)
      · exact ih (fun kv2 hkv2 => h kv2 (by simp [hkv2])) kv hm

theorem qsInsert_keys (k v : List Char) (d : List (List Char × List (List Char))) :
    (qsInsert k v d).map Prod.fst =
      if k ∈ d.map Prod.fst then d.map Prod.fst else d.map Prod.fst ++ [k] := by
  induction d with
  | nil => simp [qsInsert]
  | cons kv0 d' ih =>
    unfold qsInsert
    by_cases hc : kv0.1 = k
    · rw [if_pos hc]
      simp only [List.map_cons]
      rw [if_pos (by simp [hc])]
    · rw [if_neg hc]
      simp only [List.map_cons, ih]
      by_cases hm : k ∈ d'.map Prod.fst
      · rw [if_pos hm, if_pos (by simp [hm])]
      · rw [if_neg hm, if_neg (by
          simp only [List.mem_cons, not_or]
          exact ⟨fun h => hc h.symm, hm⟩), List.cons_append]

theorem foldl_qsInsert_invariants (ps : List (List Char × List Char)) :
    ∀ acc : List (List Char × List (List Char)),
      (acc.map Prod.fst).Nodup → (∀ kv ∈ acc, kv.2 ≠ []) →
      ((ps.foldl (fun d kv => qsInsert kv.1 kv.2 d) acc).map Prod.fst).Nodup ∧
        ∀ kv ∈ ps.foldl (fun d kv => qsInsert kv.1 kv.2 d) acc, kv.2 ≠ [] := by
  induction ps with
  | nil => intro acc h1 h2; exact ⟨h1, h2⟩
  | cons p ps' ih =>
    intro acc h1 h2
    simp only [List.foldl_cons]
    refine ih (qsInsert p.1 p.2 acc) ?_ (qsInsert_values p.1 p.2 acc h2)
    rw [qsInsert_keys]
    by_cases hm : p.1 ∈ acc.map Prod.fst
    · rw [if_pos hm]; exact h1
    · rw [if_neg hm]
      have : List.Perm (acc.map Prod.fst ++ [p.1]) (p.1 :: acc.map Prod.fst) :=
        List.perm_append_singleton _ _
      exact (this.nodup_iff).mpr (List.nodup_cons.mpr ⟨hm, h1⟩)

theorem pyParseQs_invariants (qs : List Char) :
    ((pyParseQs qs).map Prod.fst).Nodup ∧ ∀ kv ∈ pyParseQs qs, kv.2 ≠ [] :=
  foldl_qsInsert_invariants (pyParseQsl qs) [] (by simp) (by simp)

/-- The query round trip: re-parsing an encoded dict with distinct keys and
nonempty value lists recovers the dict. -/
theorem pyParseQs_pyUrlencode (fd : List (List Char × List (List Char)))
    (hnodup : (fd.map Prod.fst).Nodup) (hvs : ∀ kv ∈ fd, kv.2 ≠ []) :
    pyParseQs (pyUrlencode fd) = fd := by
  unfold pyParseQs
  rw [pyParseQsl_urlencode fd hvs]
  have := foldl_qsInsert_flatPairs fd [] (by simpa using hnodup) hvs
  simpa using this

theorem stripFilter_invariants (d : List (List Char × List (List Char)))
    (hnodup : (d.map Prod.fst).Nodup) (hvs : ∀ kv ∈ d, kv.2 ≠ []) :
    ((stripFilter d).map Prod.fst).Nodup ∧ ∀ kv ∈ stripFilter d, kv.2 ≠ [] := by
  constructor
  · exact hnodup.sublist ((List.filter_sublist d).map Prod.fst)
  · intro kv hkv
    exact hvs kv (List.mem_of_mem_filter hkv)

theorem stripFilter_idem (d : List (List Char × List (List Char))) :
    stripFilter (stripFilter d) = stripFilter d := by
  unfold stripFilter
  rw [List.filter_eq_self]
  intro kv hkv
  exact (List.mem_filter.mp hkv).2

/-- Stability of the filtered query dict under encode-decode-filter. -/
theorem stripFilter_stable (q : List Char) :
    stripFilter (pyParseQs (pyUrlencode (stripFilter (pyParseQs q)))) =
      stripFilter (pyParseQs q) := by
  rcases pyParseQs_invariants q with ⟨h1, h2⟩
  rcases stripFilter_invariants (pyParseQs q) h1 h2 with ⟨h3, h4⟩
  rw [pyParseQs_pyUrlencode _ h3 h4, stripFilter_idem]

/-! ## C4 development, step 7: split and component extraction lemmas -/

theorem splitFirst_append_none (sep : Char) (x y : List Char) (hx : sep ∉ x)
    (hy : splitFirst sep y = none) : splitFirst sep (x ++ y) = none := by
  apply splitFirst_of_not_mem
  intro h
  rcases List.mem_append.mp h with h | h
  · exact hx h
  · exact splitFirst_none sep y hy h

theorem splitFirst_append_some (sep : Char) (x y p q : List Char) (hx : sep ∉ x)
    (hy : splitFirst sep y = some (p, q)) :
    splitFirst sep (x ++ y) = some (x ++ p, q) := by
  rcases splitFirst_eq sep y p q hy with ⟨hyeq, hp⟩
  rw [hyeq, ← List.append_assoc]
  exact splitFirst_append_sep sep (x ++ p) q
    (fun hm => (List.mem_append.mp hm).elim hx hp)

theorem splitLast_eq (sep : Char) (xs a b : List Char)
    (h : splitLast sep xs = some (a, b)) : xs = a ++ sep :: b ∧ sep ∉ b := by
  unfold splitLast at h
  cases hsf : splitFirst sep xs.reverse with
  | none => rw [hsf] at h; exact absurd h (by simp)
  | some pq =>
    rcases pq with ⟨p, q⟩
    rw [hsf] at h
    injection h with h
    injection h with h1 h2
    rcases splitFirst_eq sep xs.reverse p q hsf with ⟨hrev, hp⟩
    subst h1
    subst h2
    constructor
    · have hx : xs = (p ++ sep :: q).reverse := by rw [← hrev, List.reverse_reverse]
      rw [hx]
      simp [List.reverse_append]
    · simpa using hp

theorem splitLast_none (sep : Char) (xs : List Char)
    (h : splitLast sep xs = none) : sep ∉ xs := by
  unfold splitLast at h
  cases hsf : splitFirst sep xs.reverse with
  | none =>
    intro hm
    exact splitFirst_none sep xs.reverse hsf (by simpa using hm)
  | some pq => rw [hsf] at h; exact absurd h (by simp)

theorem splitLast_append_no_sep (sep : Char) (x y : List Char) (hy : sep ∉ y) :
    splitLast sep (x ++ y) =
      match splitLast sep x with
      | none => none
      | some (b, a) => some (b, a ++ y) := by
  unfold splitLast
  rw [List.reverse_append]
  cases hsf : splitFirst sep x.reverse with
  | none =>
    rw [splitFirst_append_none sep y.reverse x.reverse (by simpa using hy) hsf]
  | some pq =>
    rcases pq with ⟨p, q⟩
    rw [splitFirst_append_some sep y.reverse x.reverse p q (by simpa using hy) hsf]
    simp [List.reverse_append]

/-- Rebuilding `path;params` and splitting again recovers the components. -/
theorem pySplitParams_rejoin (pth prm : List Char) (hsemi : ';' ∉ pth)
    (hslash : '/' ∉ prm) :
    pySplitParams (pth ++ ';' :: prm) = (pth, prm) := by
  unfold pySplitParams
  by_cases hp : '/' ∈ pth
  · rw [if_pos (List.mem_append.mpr (Or.inl hp))]
    have hny : '/' ∉ ';' :: prm := by
      intro hm
      rcases List.mem_cons.mp hm with hm | hm
      · exact absurd hm (by decide)
      · exact hslash hm
    rw [splitLast_append_no_sep '/' pth (';' :: prm) hny]
    cases hsl : splitLast '/' pth with
    | none => exact absurd hp (splitLast_none '/' pth hsl)
    | some ba =>
      rcases ba with ⟨bef, aft⟩
      rcases splitLast_eq '/' pth bef aft hsl with ⟨hpth, _⟩
      have hsemiaft : ';' ∉ aft := by
        intro hm
        exact hsemi (by rw [hpth]; simp [hm])
      dsimp only
      rw [splitFirst_append_sep ';' aft prm hsemiaft]
      dsimp only
      rw [← hpth]
  · have hx : '/' ∉ pth ++ ';' :: prm := by
      intro hm
      rcases List.mem_append.mp hm with h | h
      · exact hp h
      · rcases List.mem_cons.mp h with h | h
        · exact absurd h (by decide)
        · exact hslash h
    rw [if_neg hx, splitFirst_append_sep ';' pth prm hsemi]

/-- The first component of `_splitparams` is a prefix of its argument. -/
theorem pySplitParams_fst_prefix (x : List Char) :
    ∃ t, x = (pySplitParams x).1 ++ t := by
  unfold pySplitParams
  by_cases hp : '/' ∈ x
  · rw [if_pos hp]
    cases hsl : splitLast '/' x with
    | none => exact ⟨[], by simp⟩
    | some ba =>
      rcases ba with ⟨bef, aft⟩
      rcases splitLast_eq '/' x bef aft hsl with ⟨hx, _⟩
      dsimp only
      cases hsf : splitFirst ';' aft with
      | none => exact ⟨[], by simp⟩
      | some ab =>
        rcases ab with ⟨a, b⟩
        rcases splitFirst_eq ';' aft a b hsf with ⟨haft, _⟩
        dsimp only
        refine ⟨';' :: b, ?_⟩
        rw [hx, haft]
        simp
  · rw [if_neg hp]
    cases hsf : splitFirst ';' x with
    | none => exact ⟨[], by simp⟩
    | some ab =>
      rcases ab with ⟨a, b⟩
      rcases splitFirst_eq ';' x a b hsf with ⟨hx, _⟩
      exact ⟨';' :: b, hx⟩

/-- Either there are no params, or the argument is `path ++ ';' :: params`. -/
theorem pySplitParams_snd_cases (x : List Char) :
    (pySplitParams x).2 = [] ∨
      x = (pySplitParams x).1 ++ ';' :: (pySplitParams x).2 := by
  unfold pySplitParams
  by_cases hp : '/' ∈ x
  · rw [if_pos hp]
    cases hsl : splitLast '/' x with
    | none => exact Or.inl rfl
    | some ba =>
      rcases ba with ⟨bef, aft⟩
      rcases splitLast_eq '/' x bef aft hsl with ⟨hx, _⟩
      dsimp only
      cases hsf : splitFirst ';' aft with
      | none => exact Or.inl rfl
      | some ab =>
        rcases ab with ⟨a, b⟩
        rcases splitFirst_eq ';' aft a b hsf with ⟨haft, _⟩
        dsimp only
        refine Or.inr ?_
        rw [hx, haft]
        simp
  · rw [if_neg hp]
    cases hsf : splitFirst ';' x with
    | none => exact Or.inl rfl
    | some ab =>
      rcases ab with ⟨a, b⟩
      rcases splitFirst_eq ';' x a b hsf with ⟨hx, _⟩
      exact Or.inr hx

/-- The params component never contains a slash. -/
theorem pySplitParams_snd_no_slash (x : List Char) : '/' ∉ (pySplitParams x).2 := by
  unfold pySplitParams
  by_cases hp : '/' ∈ x
  · rw [if_pos hp]
    cases hsl : splitLast '/' x with
    | none => simp
    | some ba =>
      rcases ba with ⟨bef, aft⟩
      rcases splitLast_eq '/' x bef aft hsl with ⟨_, haft⟩
      dsimp only
      cases hsf : splitFirst ';' aft with
      | none => simp
      | some ab =>
        rcases ab with ⟨a, b⟩
        rcases splitFirst_eq ';' aft a b hsf with ⟨haft2, _⟩
        dsimp only
        intro hm
        exact haft (by rw [haft2]; simp [hm])
  · rw [if_neg hp]
    cases hsf : splitFirst ';' x with
    | none => simp
    | some ab =>
      rcases ab with ⟨a, b⟩
      rcases splitFirst_eq ';' x a b hsf with ⟨hx, _⟩
      intro hm
      exact hp (by rw [hx]; simp [hm])

/-- With a slash in the argument, the path part of `_splitparams` is nonempty. -/
theorem pySplitParams_fst_slash (x : List Char) (hp : '/' ∈ x) :
    (pySplitParams x).1 ≠ [] := by
  unfold pySplitParams
  rw [if_pos hp]
  cases hsl : splitLast '/' x with
  | none => exact absurd hp (splitLast_none '/' x hsl)
  | some ba =>
    rcases ba with ⟨bef, aft⟩
    dsimp only
    cases hsf : splitFirst ';' aft with
    | none =>
      intro hx
      dsimp only at hx
      rw [hx] at hp
      exact absurd hp (by simp)
    | some ab =>
      rcases ab with ⟨a, b⟩
      simp

theorem fragSplit_no_hash (u2 : List Char) (h : '#' ∉ u2) : fragSplit u2 = (u2, []) := by
  unfold fragSplit
  rw [splitFirst_of_not_mem '#' u2 h]

theorem fragSplit_append (a b : List Char) (ha : '#' ∉ a) :
    fragSplit (a ++ '#' :: b) = (a, b) := by
  unfold fragSplit
  rw [splitFirst_append_sep '#' a b ha]

theorem querySplit_no_query (u3 : List Char) (h : '?' ∉ u3) : querySplit u3 = (u3, []) := by
  unfold querySplit
  rw [splitFirst_of_not_mem '?' u3 h]

theorem querySplit_append (a b : List Char) (ha : '?' ∉ a) :
    querySplit (a ++ '?' :: b) = (a, b) := by
  unfold querySplit
  rw [splitFirst_append_sep '?' a b ha]

/-- The fragment step returns a prefix on the left. -/
theorem fragSplit_fst_prefix (u2 : List Char) : ∃ t, u2 = (fragSplit u2).1 ++ t := by
  unfold fragSplit
  cases hsf : splitFirst '#' u2 with
  | none => exact ⟨[], by simp⟩
  | some ab =>
    rcases ab with ⟨a, b⟩
    rcases splitFirst_eq '#' u2 a b hsf with ⟨hx, _⟩
    exact ⟨'#' :: b, hx⟩

/-- The query step returns a prefix on the left. -/
theorem querySplit_fst_prefix (u3 : List Char) : ∃ t, u3 = (querySplit u3).1 ++ t := by
  unfold querySplit
  cases hsf : splitFirst '?' u3 with
  | none => exact ⟨[], by simp⟩
  | some ab =>
    rcases ab with ⟨a, b⟩
    rcases splitFirst_eq '?' u3 a b hsf with ⟨hx, _⟩
    exact ⟨'?' :: b, hx⟩

/-- No `'#'` survives into the pre-fragment remainder. -/
theorem fragSplit_fst_no_hash (u2 : List Char) : '#' ∉ (fragSplit u2).1 := by
  unfold fragSplit
  cases hsf : splitFirst '#' u2 with
  | none => exact splitFirst_none '#' u2 hsf
  | some ab =>
    rcases ab with ⟨a, b⟩
    exact (splitFirst_eq '#' u2 a b hsf).2

/-- No `'?'` survives into the path of `urlsplit`. -/
theorem querySplit_fst_no_query (u3 : List Char) : '?' ∉ (querySplit u3).1 := by
  unfold querySplit
  cases hsf : splitFirst '?' u3 with
  | none => exact splitFirst_none '?' u3 hsf
  | some ab =>
    rcases ab with ⟨a, b⟩
    exact (splitFirst_eq '?' u3 a b hsf).2

theorem char_toNat_le {a c : Char} (h : a.toNat ≤ c.toNat) : a ≤ c := by
  rw [Char.le_def, UInt32.le_def]
  simp only [Char.toNat] at h
  exact_mod_cast h

theorem char_toNat_ofNat (n : Nat) (h : n < 55296) : (Char.ofNat n).toNat = n := by
  have hv : n.isValidChar := Or.inl h
  unfold Char.ofNat
  rw [dif_pos hv]
  rfl

theorem pyLowerChar_toNat (c : Char) :
    (pyLowerChar c).toNat =
      if 65 ≤ c.toNat ∧ c.toNat ≤ 90 then c.toNat + 32 else c.toNat := by
  have eA : ('A').toNat = 65 := rfl
  have eZ : ('Z').toNat = 90 := rfl
  unfold pyLowerChar
  by_cases h : 'A' ≤ c ∧ c ≤ 'Z'
  · have h1 := char_le_toNat h.1
    have h2 := char_le_toNat h.2
    rw [eA] at h1
    rw [eZ] at h2
    rw [if_pos h, if_pos ⟨h1, h2⟩, char_toNat_ofNat _ (by omega)]
  · rw [if_neg h, if_neg ?_]
    intro hc
    exact h ⟨char_toNat_le (by omega), char_toNat_le (by omega)⟩

/-- A scheme character is none of the URL delimiter characters. -/
theorem isSchemeChar_not (c : Char) (h : isSchemeChar c = true) :
    c ≠ ':' ∧ c ≠ '/' ∧ c ≠ ';' ∧ c ≠ '?' ∧ c ≠ '#' := by
  simp only [isSchemeChar, Bool.or_eq_true, Bool.and_eq_true, decide_eq_true_eq,
    beq_iff_eq] at h
  have hlt : c.toNat ≠ 58 ∧ c.toNat ≠ 47 ∧ c.toNat ≠ 59 ∧ c.toNat ≠ 63 ∧ c.toNat ≠ 35 := by
    have eA : ('A').toNat = 65 := rfl
    have eZ : ('Z').toNat = 90 := rfl
    have ea : ('a').toNat = 97 := rfl
    have ez : ('z').toNat = 122 := rfl
    have e0 : ('0').toNat = 48 := rfl
    have e9 : ('9').toNat = 57 := rfl
    rcases h with ((((⟨h1, h2⟩ | ⟨h1, h2⟩) | ⟨h1, h2⟩) | h) | h) | h
    · have := char_le_toNat h1
      have := char_le_toNat h2
      refine ⟨by omega, by omega, by omega, by omega, by omega⟩
    · have := char_le_toNat h1
      have := char_le_toNat h2
      refine ⟨by omega, by omega, by omega, by omega, by omega⟩
    · have := char_le_toNat h1
      have := char_le_toNat h2
      refine ⟨by omega, by omega, by omega, by omega, by omega⟩
    all_goals subst h
    all_goals refine ⟨by decide, by decide, by decide, by decide, by decide⟩
  refine ⟨?_, ?_, ?_, ?_, ?_⟩
  · intro hc; subst hc; exact hlt.1 rfl
  · intro hc; subst hc; exact hlt.2.1 rfl
  · intro hc; subst hc; exact hlt.2.2.1 rfl
  · intro hc; subst hc; exact hlt.2.2.2.1 rfl
  · intro hc; subst hc; exact hlt.2.2.2.2 rfl

theorem isSchemeChar_lower (c : Char) (h : isSchemeChar c = true) :
    isSchemeChar (pyLowerChar c) = true := by
  by_cases hAZ : 'A' ≤ c ∧ c ≤ 'Z'
  · have h1 := char_le_toNat hAZ.1
    have h2 := char_le_toNat hAZ.2
    have eA : ('A').toNat = 65 := rfl
    have eZ : ('Z').toNat = 90 := rfl
    rw [eA] at h1
    rw [eZ] at h2
    have hr : (pyLowerChar c).toNat = c.toNat + 32 := by
      rw [pyLowerChar_toNat, if_pos ⟨h1, h2⟩]
    simp only [isSchemeChar, Bool.or_eq_true, Bool.and_eq_true, decide_eq_true_eq,
      beq_iff_eq]
    have ea : ('a').toNat = 97 := rfl
    have ez : ('z').toNat = 122 := rfl
    exact Or.inl (Or.inl (Or.inl (Or.inl (Or.inl
      ⟨char_toNat_le (by omega), char_toNat_le (by omega)⟩))))
  · unfold pyLowerChar
    rw [if_neg hAZ]
    exact h

theorem pyLowerChar_idem (c : Char) : pyLowerChar (pyLowerChar c) = pyLowerChar c := by
  by_cases hAZ : 'A' ≤ c ∧ c ≤ 'Z'
  · have h1 := char_le_toNat hAZ.1
    have h2 := char_le_toNat hAZ.2
    have eA : ('A').toNat = 65 := rfl
    have eZ : ('Z').toNat = 90 := rfl
    rw [eA] at h1
    rw [eZ] at h2
    have hr : (pyLowerChar c).toNat = c.toNat + 32 := by
      rw [pyLowerChar_toNat, if_pos ⟨by omega, by omega⟩]
    have hcond : ¬ ('A' ≤ pyLowerChar c ∧ pyLowerChar c ≤ 'Z') := by
      intro hc
      have := char_le_toNat hc.2
      rw [eZ, hr] at this
      omega
    rw [show pyLowerChar (pyLowerChar c) =
          if 'A' ≤ pyLowerChar c ∧ pyLowerChar c ≤ 'Z' then
            Char.ofNat ((pyLowerChar c).toNat + 32)
          else pyLowerChar c from rfl,
      if_neg hcond]
  · conv_lhs => rw [show pyLowerChar c = c from by unfold pyLowerChar; rw [if_neg hAZ]]

theorem lowerStr_idem (s : List Char) : lowerStr (lowerStr s) = lowerStr s := by
  unfold lowerStr
  rw [List.map_map]
  apply List.map_congr_left
  intro a _
  simp only [Function.comp_apply]
  exact pyLowerChar_idem a

theorem lowerStr_all_scheme (s : List Char) (h : s.all isSchemeChar = true) :
    (lowerStr s).all isSchemeChar = true := by
  rw [List.all_eq_true] at h ⊢
  intro x hx
  rw [lowerStr, List.mem_map] at hx
  rcases hx with ⟨a, ha, rfl⟩
  exact isSchemeChar_lower a (h a ha)

/-- A string of scheme characters contains no URL delimiters. -/
theorem scheme_no_specials (s : List Char) (h : s.all isSchemeChar = true) :
    ':' ∉ s ∧ '/' ∉ s ∧ ';' ∉ s ∧ '?' ∉ s ∧ '#' ∉ s := by
  rw [List.all_eq_true] at h
  refine ⟨fun hm => ?_, fun hm => ?_, fun hm => ?_, fun hm => ?_, fun hm => ?_⟩
  · exact (isSchemeChar_not ':' (h ':' hm)).1 rfl
  · exact (isSchemeChar_not '/' (h '/' hm)).2.1 rfl
  · exact (isSchemeChar_not ';' (h ';' hm)).2.2.1 rfl
  · exact (isSchemeChar_not '?' (h '?' hm)).2.2.2.1 rfl
  · exact (isSchemeChar_not '#' (h '#' hm)).2.2.2.2 rfl

/-- A valid-scheme prefix is split off and kept (it is already lower-case). -/
theorem schemeSplit_scheme_prefix (sch w : List Char) (hne : sch ≠ [])
    (hall : sch.all isSchemeChar = true) (hlow : lowerStr sch = sch) :
    schemeSplit (sch ++ ':' :: w) = (sch, w) := by
  rw [schemeSplit_eq,
    splitFirst_append_sep ':' sch w (scheme_no_specials sch hall).1]
  dsimp only
  rw [if_pos (by simp [hne, hall]), hlow]

/-- A leading character that is not a scheme character blocks scheme detection. -/
theorem schemeSplit_head_block (c : Char) (rest : List Char)
    (hc : isSchemeChar c = false) (hcol : c ≠ ':') :
    schemeSplit (c :: rest) = ([], c :: rest) := by
  rw [schemeSplit_eq]
  show (match splitFirst ':' (c :: rest) with
        | some (pre, post) =>
          if !pre.isEmpty && pre.all isSchemeChar then (lowerStr pre, post)
          else ([], c :: rest)
        | none => ([], c :: rest)) = ([], c :: rest)
  unfold splitFirst
  rw [if_neg hcol]
  cases hsf : splitFirst ':' rest with
  | none => rfl
  | some ab =>
    rcases ab with ⟨a, b⟩
    dsimp only
    rw [if_neg ?_]
    simp only [Bool.and_eq_true, Bool.not_eq_true', List.all_cons, not_and, hc,
      Bool.false_and]
    intro _
    simp

/-- With no colon in the path and a delimiter (or nothing) following it, scheme
detection fails on the rebuilt URL. -/
theorem schemeSplit_no_colon_sep (pth rest2 : List Char) (hp : ':' ∉ pth)
    (hr : rest2 = [] ∨ ∃ d rest3, rest2 = d :: rest3 ∧ isSchemeChar d = false ∧ d ≠ ':') :
    schemeSplit (pth ++ rest2) = ([], pth ++ rest2) := by
  rw [schemeSplit_eq]
  rcases hr with rfl | ⟨d, rest3, rfl, hd, hdc⟩
  · rw [splitFirst_append_none ':' pth [] hp rfl]
  · have hstep : splitFirst ':' (d :: rest3) =
        match splitFirst ':' rest3 with
        | none => none
        | some (a, b) => some (d :: a, b) := by
      simp only [splitFirst]
      rw [if_neg hdc]
    cases hsf : splitFirst ':' rest3 with
    | none =>
      rw [splitFirst_append_none ':' pth (d :: rest3) hp (by rw [hstep, hsf])]
    | some ab =>
      rcases ab with ⟨a, b⟩
      rw [splitFirst_append_some ':' pth (d :: rest3) (d :: a) b hp
        (by rw [hstep, hsf])]
      dsimp only
      rw [if_neg ?_]
      have : ¬ (pth ++ d :: a).all isSchemeChar = true := by
        intro hall
        have := List.all_eq_true.mp hall d (by simp)
        rw [hd] at this
        exact absurd this (by simp)
      simp only [Bool.and_eq_true, not_and]
      intro _
      exact this

/-- An invalid scheme candidate before the first colon is rejected. -/
theorem schemeSplit_bad_scheme (α β : List Char) (ha : ':' ∉ α)
    (hbad : α = [] ∨ α.all isSchemeChar = false) :
    schemeSplit (α ++ ':' :: β) = ([], α ++ ':' :: β) := by
  rw [schemeSplit_eq, splitFirst_append_sep ':' α β ha]
  dsimp only
  rw [if_neg ?_]
  rcases hbad with rfl | hbad
  · simp
  · simp [hbad]

/-- If `urlsplit` reports no scheme, the whole input is passed on. -/
theorem schemeSplit_fst_nil (u : List Char) (h : (schemeSplit u).1 = []) :
    (schemeSplit u).2 = u := by
  rw [schemeSplit_eq] at h ⊢
  cases hsf : splitFirst ':' u with
  | none => rfl
  | some ab =>
    rcases ab with ⟨pre, post⟩
    rw [hsf] at h
    dsimp only at h ⊢
    by_cases hok : (!pre.isEmpty && pre.all isSchemeChar) = true
    · rw [if_pos hok] at h
      dsimp only at h
      simp only [Bool.and_eq_true, Bool.not_eq_true', List.isEmpty_eq_false] at hok
      exact absurd h (by simp [lowerStr, hok.1])
    · rw [if_neg hok]

/-- The scheme reported by `urlsplit` is either empty or a nonempty lower-case
string of scheme characters. -/
theorem schemeSplit_fst_spec (u : List Char) :
    (schemeSplit u).1 = [] ∨
      ((schemeSplit u).1 ≠ [] ∧ (schemeSplit u).1.all isSchemeChar = true ∧
        lowerStr (schemeSplit u).1 = (schemeSplit u).1) := by
  rw [schemeSplit_eq]
  cases hsf : splitFirst ':' u with
  | none => exact Or.inl rfl
  | some ab =>
    rcases ab with ⟨pre, post⟩
    dsimp only
    by_cases hok : (!pre.isEmpty && pre.all isSchemeChar) = true
    · rw [if_pos hok]
      simp only [Bool.and_eq_true, Bool.not_eq_true', List.isEmpty_eq_false] at hok
      refine Or.inr ⟨by simp [lowerStr, hok.1], lowerStr_all_scheme pre hok.2, lowerStr_idem pre⟩
    · rw [if_neg hok]
      exact Or.inl rfl

/-- The authority-prefixed part of `urlunsplit` (before query and fragment). -/
def unsplitBase (n u : List Char) : List Char :=
  if n ≠ [] ∨ u.take 2 = ['/', '/'] then
    '/' :: '/' :: (n ++ (if u ≠ [] ∧ u.take 1 ≠ ['/'] then '/' :: u else u))
  else u

/-- The query-fragment tail appended by `urlunsplit`. -/
def qfTail (q f : List Char) : List Char :=
  (if q ≠ [] then '?' :: q else []) ++ (if f ≠ [] then '#' :: f else [])

theorem pyUrlunsplit_eq (s n u q f : List Char) :
    pyUrlunsplit s n u q f =
      (if s ≠ [] then s ++ ':' :: unsplitBase n u else unsplitBase n u) ++ qfTail q f := by
  simp only [pyUrlunsplit, unsplitBase, qfTail]
  split_ifs <;> simp [List.append_assoc]

theorem qfTail_shape (q f : List Char) :
    qfTail q f = [] ∨ (∃ t, qfTail q f = '?' :: t) ∨ ∃ t, qfTail q f = '#' :: t := by
  unfold qfTail
  by_cases hq : q ≠ []
  · rw [if_pos hq]
    exact Or.inr (Or.inl ⟨q ++ (if f ≠ [] then '#' :: f else []), by simp⟩)
  · rw [if_neg hq]
    by_cases hf : f ≠ []
    · rw [if_pos hf]
      exact Or.inr (Or.inr ⟨f, by simp⟩)
    · rw [if_neg hf]
      exact Or.inl rfl

theorem dropWhile_shape (p : Char → Bool) (l : List Char) :
    l.dropWhile p = [] ∨ ∃ c r, l.dropWhile p = c :: r ∧ p c = false := by
  induction l with
  | nil => exact Or.inl rfl
  | cons c r ih =>
    rw [List.dropWhile_cons]
    by_cases h : p c = true
    · rw [if_pos h]
      exact ih
    · rw [if_neg h]
      exact Or.inr ⟨c, r, rfl, by simpa using h⟩

theorem take_one_append (a t : List Char) (h : a ≠ []) : (a ++ t).take 1 = a.take 1 := by
  cases a with
  | nil => exact absurd rfl h
  | cons c r => rfl

theorem take_one_eq_cons (a : List Char) (c : Char) (h : a.take 1 = [c]) :
    ∃ r, a = c :: r := by
  cases a with
  | nil => simp at h
  | cons x r =>
    refine ⟨r, ?_⟩
    simp only [List.take_succ_cons, List.take_zero] at h
    injection h with h1
    rw [h1]

/-- Reconstructing `//netloc...` and splitting again recovers the authority. -/
theorem netlocSplit_rebuild (nl rest : List Char)
    (hnl : ∀ c ∈ nl, netEnd c = false)
    (hrest : rest = [] ∨ ∃ d r3, rest = d :: r3 ∧ netEnd d = true) :
    netlocSplit ('/' :: '/' :: (nl ++ rest)) = (nl, rest) := by
  unfold netlocSplit
  rw [if_pos (show List.take 2 ('/' :: '/' :: (nl ++ rest)) = ['/', '/'] from rfl)]
  have hdrop : ('/' :: '/' :: (nl ++ rest)).drop 2 = nl ++ rest := rfl
  rw [hdrop, List.takeWhile_append_of_pos (fun c hc => by simp [hnl c hc]),
    List.dropWhile_append_of_pos (fun c hc => by simp [hnl c hc])]
  rcases hrest with rfl | ⟨d, r3, rfl, hd⟩
  · simp
  · rw [List.takeWhile_cons_of_neg (by simp [hd]), List.dropWhile_cons_of_neg (by simp [hd])]
    simp

/-- Every character that `urlencode(doseq=True)` emits. -/
theorem pyUrlencode_classes (d : List (List Char × List (List Char))) (x : Char)
    (h : x ∈ pyUrlencode d) :
    (alwaysSafeChar x || x == '+' || x == '%' || isHexDigitChar x ||
      x == '&' || x == '=') = true := by
  rw [pyUrlencode_eq_join] at h
  rcases joinSep_mem '&' _ x h with rfl | ⟨ch, hch, hx⟩
  · decide
  · unfold encChunks at hch
    rw [List.mem_flatten] at hch
    rcases hch with ⟨l, hl, hchl⟩
    rw [List.mem_map] at hl
    rcases hl with ⟨kv, _, rfl⟩
    rw [List.mem_map] at hchl
    rcases hchl with ⟨v, _, rfl⟩
    rcases List.mem_append.mp hx with hx | hx
    · have := quotePlus_classes kv.1 x hx
      simp only [Bool.or_eq_true] at this ⊢
      tauto
    · rcases List.mem_cons.mp hx with rfl | hx
      · decide
      · have := quotePlus_classes v x hx
        simp only [Bool.or_eq_true] at this ⊢
        tauto

theorem pyUrlencode_not_mem (χ : Char) (d : List (List Char × List (List Char)))
    (h : (alwaysSafeChar χ || χ == '+' || χ == '%' || isHexDigitChar χ ||
      χ == '&' || χ == '=') = false) : χ ∉ pyUrlencode d := by
  intro hm
  have := pyUrlencode_classes d χ hm
  rw [h] at this
  exact absurd this (by decide)

theorem take_two_ne_slashes (P t : List Char) (hP : P.take 2 ≠ ['/', '/'])
    (ht : t = [] ∨ (∃ r, t = '?' :: r) ∨ ∃ r, t = '#' :: r) :
    (P ++ t).take 2 ≠ ['/', '/'] := by
  cases P with
  | nil =>
    rw [List.nil_append]
    rcases ht with rfl | ⟨r, rfl⟩ | ⟨r, rfl⟩
    · simp
    · intro h
      simp only [List.take_succ_cons] at h
      injection h with h1 _
      exact absurd h1 (by decide)
    · intro h
      simp only [List.take_succ_cons] at h
      injection h with h1 _
      exact absurd h1 (by decide)
  | cons c r =>
    cases r with
    | nil =>
      rcases ht with rfl | ⟨r2, rfl⟩ | ⟨r2, rfl⟩
      · rw [List.append_nil]
        exact hP
      · intro h
        simp only [List.cons_append, List.nil_append, List.take_succ_cons] at h
        injection h with h1 h2
        injection h2 with h3 _
        exact absurd h3 (by decide)
      · intro h
        simp only [List.cons_append, List.nil_append, List.take_succ_cons] at h
        injection h with h1 h2
        injection h2 with h3 _
        exact absurd h3 (by decide)
    | cons c2 r2 =>
      intro h
      apply hP
      simp only [List.cons_append, List.take_succ_cons, List.take_zero] at h ⊢
      exact h

/-- Conditions for the path component not to be mistaken for a scheme when the
rebuilt URL is parsed again. -/
def schemeRejects (pth : List Char) : Prop :=
  ':' ∉ pth ∨ pth.take 1 = ['/'] ∨
    ∃ α β, pth = α ++ ':' :: β ∧ ':' ∉ α ∧ (α = [] ∨ α.all isSchemeChar = false)

/-- The unparse-reparse round trip of `urlparse`/`urlunparse`: under the
invariants that every component produced by a successful parse satisfies,
re-parsing the rebuilt URL recovers the components exactly. -/
theorem pyUrlparse_pyUrlunparse
    (sch nl pth prm nq frg : List Char)
    (hsch : sch = [] ∨ (sch ≠ [] ∧ sch.all isSchemeChar = true ∧ lowerStr sch = sch))
    (hschR : sch = [] → nl = [] →
      (if prm ≠ [] then pth ++ ';' :: prm else pth).take 2 ≠ ['/', '/'] →
      schemeRejects pth)
    (hnl : ∀ c ∈ nl, netEnd c = false)
    (hbr : ¬ badBrackets nl)
    (hpH : '#' ∉ pth) (hpQ : '?' ∉ pth) (hpS : ';' ∉ pth)
    (hfix : nl ≠ [] → (pth = [] ∧ prm = []) ∨ pth.take 1 = ['/'])
    (hprmS : '/' ∉ prm) (hprmH : '#' ∉ prm) (hprmQ : '?' ∉ prm)
    (hnqH : '#' ∉ nq) :
    pyUrlparse (pyUrlunparse sch nl pth prm nq frg) =
      Except.ok ⟨sch, nl, pth, prm, nq, frg⟩ := by
  unfold pyUrlunparse
  rw [pyUrlunsplit_eq]
  set P := if prm ≠ [] then pth ++ ';' :: prm else pth with hPdef
  have hPsplit : P = pth ++ (if prm ≠ [] then ';' :: prm else []) := by
    rw [hPdef]
    by_cases hprm : prm ≠ []
    · rw [if_pos hprm, if_pos hprm]
    · rw [if_neg hprm, if_neg hprm, List.append_nil]
  have hPH : '#' ∉ P := by
    rw [hPsplit]
    intro hm
    rcases List.mem_append.mp hm with hm | hm
    · exact hpH hm
    · by_cases hprm : prm ≠ []
      · rw [if_pos hprm] at hm
        rcases List.mem_cons.mp hm with hm | hm
        · exact absurd hm (by decide)
        · exact hprmH hm
      · rw [if_neg hprm] at hm
        exact absurd hm (by simp)
  have hPQ : '?' ∉ P := by
    rw [hPsplit]
    intro hm
    rcases List.mem_append.mp hm with hm | hm
    · exact hpQ hm
    · by_cases hprm : prm ≠ []
      · rw [if_pos hprm] at hm
        rcases List.mem_cons.mp hm with hm | hm
        · exact absurd hm (by decide)
        · exact hprmQ hm
      · rw [if_neg hprm] at hm
        exact absurd hm (by simp)
  have hA : schemeSplit
      ((if sch ≠ [] then sch ++ ':' :: unsplitBase nl P else unsplitBase nl P) ++
        qfTail nq frg) =
      (sch, unsplitBase nl P ++ qfTail nq frg) := by
    rcases hsch with hs0 | ⟨hsne, hsall, hslow⟩
    · subst hs0
      rw [if_neg (by simp)]
      by_cases hE : nl ≠ [] ∨ P.take 2 = ['/', '/']
      · rw [show unsplitBase nl P =
            '/' :: '/' :: (nl ++ (if P ≠ [] ∧ P.take 1 ≠ ['/'] then '/' :: P else P))
            from by unfold unsplitBase; rw [if_pos hE]]
        exact schemeSplit_head_block '/'
          (('/' :: (nl ++ (if P ≠ [] ∧ P.take 1 ≠ ['/'] then '/' :: P else P))) ++
            qfTail nq frg) (by decide) (by decide)
      · have hEn := hE
        push_neg at hEn
        rw [show unsplitBase nl P = P from by unfold unsplitBase; rw [if_neg hE]]
        have hrej := hschR rfl hEn.1 hEn.2
        rw [hPsplit, List.append_assoc]
        set rest2 := (if prm ≠ [] then ';' :: prm else []) ++ qfTail nq frg with hrest2
        have hshape : rest2 = [] ∨
            ∃ d r3, rest2 = d :: r3 ∧ isSchemeChar d = false ∧ d ≠ ':' := by
          rw [hrest2]
          by_cases hprm : prm ≠ []
          · rw [if_pos hprm]
            exact Or.inr ⟨';', prm ++ qfTail nq frg, by simp, by decide, by decide⟩
          · rw [if_neg hprm, List.nil_append]
            rcases qfTail_shape nq frg with h | ⟨t, h⟩ | ⟨t, h⟩
            · exact Or.inl h
            · exact Or.inr ⟨'?', t, h, by decide, by decide⟩
            · exact Or.inr ⟨'#', t, h, by decide, by decide⟩
        rcases hrej with hrej | hrej | ⟨α, β, hpeq, hna, hbad⟩
        · exact schemeSplit_no_colon_sep pth rest2 hrej hshape
        · rcases take_one_eq_cons pth '/' hrej with ⟨r, rfl⟩
          exact schemeSplit_head_block '/' (r ++ rest2) (by decide) (by decide)
        · rw [hpeq, List.append_assoc]
          exact schemeSplit_bad_scheme α (β ++ rest2) hna hbad
    · rw [if_pos hsne, List.append_assoc]
      exact schemeSplit_scheme_prefix sch (unsplitBase nl P ++ qfTail nq frg)
        hsne hsall hslow
  have hB : netlocSplit (unsplitBase nl P ++ qfTail nq frg) =
      (nl, P ++ qfTail nq frg) := by
    by_cases hE : nl ≠ [] ∨ P.take 2 = ['/', '/']
    · have hPfix : P = [] ∨ P.take 1 = ['/'] := by
        rcases hE with hnl' | hP2
        · rcases hfix hnl' with ⟨hpe, hpre⟩ | hp1
          · left
            rw [hPdef, if_neg (by simpa using hpre), hpe]
          · right
            rcases take_one_eq_cons pth '/' hp1 with ⟨r, hpr⟩
            rw [hPsplit, hpr, List.cons_append]
            rfl
        · right
          cases hPc : P with
          | nil => rw [hPc] at hP2; simp at hP2
          | cons c r =>
            rw [hPc] at hP2
            simp only [List.take_succ_cons] at hP2
            injection hP2 with h1 _
            rw [h1]
            rfl
      have hufix : (if P ≠ [] ∧ P.take 1 ≠ ['/'] then '/' :: P else P) = P := by
        rcases hPfix with h | h
        · rw [if_neg (by simp [h])]
        · rw [if_neg (by simp [h])]
      rw [show unsplitBase nl P = '/' :: '/' :: (nl ++ P) from by
        unfold unsplitBase; rw [if_pos hE, hufix]]
      rw [show ('/' :: '/' :: (nl ++ P)) ++ qfTail nq frg =
          '/' :: '/' :: (nl ++ (P ++ qfTail nq frg)) from by simp [List.append_assoc]]
      apply netlocSplit_rebuild nl (P ++ qfTail nq frg) hnl
      rcases hPfix with hPe | hP1
      · rw [hPe, List.nil_append]
        rcases qfTail_shape nq frg with h | ⟨t, h⟩ | ⟨t, h⟩
        · exact Or.inl h
        · exact Or.inr ⟨'?', t, h, by decide⟩
        · exact Or.inr ⟨'#', t, h, by decide⟩
      · rcases take_one_eq_cons P '/' hP1 with ⟨r, hPr⟩
        rw [hPr, List.cons_append]
        exact Or.inr ⟨'/', r ++ qfTail nq frg, rfl, by decide⟩
    · have hEn := hE
      push_neg at hEn
      rw [show unsplitBase nl P = P from by unfold unsplitBase; rw [if_neg hE]]
      unfold netlocSplit
      rw [if_neg (take_two_ne_slashes P (qfTail nq frg) hEn.2 (qfTail_shape nq frg)),
        hEn.1]
  have hC : fragSplit (P ++ qfTail nq frg) =
      (P ++ (if nq ≠ [] then '?' :: nq else []), frg) := by
    have hnoH : '#' ∉ P ++ (if nq ≠ [] then '?' :: nq else []) := by
      intro hm
      rcases List.mem_append.mp hm with hm | hm
      · exact hPH hm
      · by_cases hnq : nq ≠ []
        · rw [if_pos hnq] at hm
          rcases List.mem_cons.mp hm with hm | hm
          · exact absurd hm (by decide)
          · exact hnqH hm
        · rw [if_neg hnq] at hm
          exact absurd hm (by simp)
    by_cases hfrg : frg ≠ []
    · rw [show P ++ qfTail nq frg =
          (P ++ (if nq ≠ [] then '?' :: nq else [])) ++ '#' :: frg from by
        unfold qfTail; rw [if_pos hfrg, ← List.append_assoc]]
      exact fragSplit_append _ frg hnoH
    · rw [show qfTail nq frg = (if nq ≠ [] then '?' :: nq else []) ++ [] from by
        unfold qfTail; rw [if_neg hfrg]]
      rw [List.append_nil, fragSplit_no_hash _ hnoH]
      simp only [ne_eq, not_not] at hfrg
      rw [hfrg]
  have hD : querySplit (P ++ (if nq ≠ [] then '?' :: nq else [])) = (P, nq) := by
    by_cases hnq : nq ≠ []
    · rw [if_pos hnq]
      exact querySplit_append P nq hPQ
    · rw [if_neg hnq, List.append_nil, querySplit_no_query P hPQ]
      simp only [ne_eq, not_not] at hnq
      rw [hnq]
  have hEp : (if ';' ∈ P then pySplitParams P else (P, [])) = (pth, prm) := by
    by_cases hprm : prm ≠ []
    · have hPeq : P = pth ++ ';' :: prm := by rw [hPdef, if_pos hprm]
      rw [if_pos (by rw [hPeq]; simp), hPeq]
      exact pySplitParams_rejoin pth prm hpS hprmS
    · simp only [ne_eq, not_not] at hprm
      have hPeq : P = pth := by rw [hPdef]; simp [hprm]
      rw [hPeq, if_neg hpS, hprm]
  set V := (if sch ≠ [] then sch ++ ':' :: unsplitBase nl P else unsplitBase nl P) ++
    qfTail nq frg with hVdef
  have hsu1 : su1 V = unsplitBase nl P ++ qfTail nq frg := by
    unfold su1
    rw [hVdef, hA]
  have hnet : sNetloc V = nl := by
    unfold sNetloc su1
    rw [hVdef, hA]
    dsimp only
    rw [hB]
  have hsu2 : su2 V = P ++ qfTail nq frg := by
    unfold su2 su1
    rw [hVdef, hA]
    dsimp only
    rw [hB]
  have hsu3 : su3 V = P ++ (if nq ≠ [] then '?' :: nq else []) := by
    unfold su3
    rw [hsu2, hC]
  have hfr : sFrag V = frg := by
    unfold sFrag
    rw [hsu2, hC]
  have hsp : sPath V = P := by
    unfold sPath
    rw [hsu3, hD]
  have hsq : sQuery V = nq := by
    unfold sQuery
    rw [hsu3, hD]
  have hppa : pPath V = pth := by
    unfold pPath
    rw [hsp, hEp]
  have hppb : pParams V = prm := by
    unfold pParams
    rw [hsp, hEp]
  have hsch2 : (schemeSplit V).1 = sch := by
    rw [hVdef, hA]
  rw [pyUrlparse_eq, hnet, if_neg hbr, hsch2, hppa, hppb, hsq, hfr]

theorem prefix_take_one (a x t : List Char) (hx : x = a ++ t) (ha : a ≠ []) :
    x.take 1 = a.take 1 := by
  rw [hx]
  exact take_one_append a t ha

theorem take_two_pres (a t : List Char) (h : (a ++ t).take 2 ≠ ['/', '/'])
    (ha : a ≠ []) : a.take 2 ≠ ['/', '/'] := by
  cases a with
  | nil => exact absurd rfl ha
  | cons c r =>
    cases r with
    | nil =>
      intro he
      simp only [List.take_succ_cons, List.take_nil] at he
      injection he with _ h2
      exact absurd h2 (by simp)
    | cons c2 r2 =>
      intro he
      apply h
      simp only [List.cons_append, List.take_succ_cons, List.take_zero] at he ⊢
      exact he

theorem rstripSlashes_cons_ne (c : Char) (s : List Char) (h : rstripSlashes s ≠ []) :
    rstripSlashes (c :: s) = c :: rstripSlashes s := by
  have := rstripSlashes_append [c] s
  rw [if_neg h] at this
  simpa using this

/-- No character of the authority component ends the netloc scan. -/
theorem sNetloc_no_netEnd (u : List Char) : ∀ c ∈ sNetloc u, netEnd c = false := by
  intro c hc
  unfold sNetloc netlocSplit at hc
  by_cases h2 : (su1 u).take 2 = ['/', '/']
  · rw [if_pos h2] at hc
    have := List.mem_takeWhile_imp hc
    simpa using this
  · rw [if_neg h2] at hc
    exact absurd hc (by simp)

theorem su3_no_hash (u : List Char) : '#' ∉ su3 u := fragSplit_fst_no_hash (su2 u)

theorem sPath_no_query (u : List Char) : '?' ∉ sPath u := querySplit_fst_no_query (su3 u)

theorem sPath_no_hash (u : List Char) : '#' ∉ sPath u := by
  intro hm
  rcases querySplit_fst_prefix (su3 u) with ⟨t, ht⟩
  exact su3_no_hash u (by rw [ht]; exact List.mem_append.mpr (Or.inl hm))

/-- The path of `urlparse` is a prefix of the path of `urlsplit`. -/
theorem pPath_prefix (u : List Char) : ∃ t, sPath u = pPath u ++ t := by
  unfold pPath
  by_cases h : ';' ∈ sPath u
  · rw [if_pos h]
    exact pySplitParams_fst_prefix (sPath u)
  · rw [if_neg h]
    exact ⟨[], by simp⟩

theorem pPath_no_hash (u : List Char) : '#' ∉ pPath u := by
  intro hm
  rcases pPath_prefix u with ⟨t, ht⟩
  exact sPath_no_hash u (by rw [ht]; exact List.mem_append.mpr (Or.inl hm))

theorem pPath_no_query (u : List Char) : '?' ∉ pPath u := by
  intro hm
  rcases pPath_prefix u with ⟨t, ht⟩
  exact sPath_no_query u (by rw [ht]; exact List.mem_append.mpr (Or.inl hm))

/-- The parameter component of `urlparse` contains no `'/'`, `'#'` or `'?'`. -/
theorem pParams_no_specials (u : List Char) :
    '/' ∉ pParams u ∧ '#' ∉ pParams u ∧ '?' ∉ pParams u := by
  unfold pParams
  by_cases h : ';' ∈ sPath u
  · rw [if_pos h]
    refine ⟨pySplitParams_snd_no_slash (sPath u), ?_, ?_⟩
    · intro hm
      rcases pySplitParams_snd_cases (sPath u) with h2 | h2
      · rw [h2] at hm
        exact absurd hm (by simp)
      · exact sPath_no_hash u (by rw [h2]; simp [hm])
    · intro hm
      rcases pySplitParams_snd_cases (sPath u) with h2 | h2
      · rw [h2] at hm
        exact absurd hm (by simp)
      · exact sPath_no_query u (by rw [h2]; simp [hm])
  · rw [if_neg h]
    exact ⟨by simp, by simp, by simp⟩

/-- When the authority was split off, the remainder is empty or starts with a
netloc-terminating character. -/
theorem su2_shape (u : List Char) (hfired : (su1 u).take 2 = ['/', '/']) :
    su2 u = [] ∨ ∃ d r, su2 u = d :: r ∧ netEnd d = true := by
  have hsu2 : su2 u = List.dropWhile (fun c => !netEnd c) ((su1 u).drop 2) := by
    unfold su2 netlocSplit
    rw [if_pos hfired]
  rcases dropWhile_shape (fun c => !netEnd c) ((su1 u).drop 2) with h | ⟨d, r, h, hd⟩
  · exact Or.inl (by rw [hsu2, h])
  · exact Or.inr ⟨d, r, by rw [hsu2, h], by simpa using hd⟩

/-- If the authority is nonempty, the `//` branch of `urlsplit` fired. -/
theorem sNetloc_fired (u : List Char) (hnl : sNetloc u ≠ []) :
    (su1 u).take 2 = ['/', '/'] := by
  by_contra h
  apply hnl
  unfold sNetloc netlocSplit
  rw [if_neg h]

/-- Once the authority branch fired, the parsed path (and hence its prefix
after parameter splitting) is empty or starts with `'/'`; moreover an empty
parsed path forces empty parameters. -/
theorem pPath_fix_fact (u : List Char) (hfired : (su1 u).take 2 = ['/', '/']) :
    (pPath u = [] ∧ pParams u = []) ∨ (pPath u).take 1 = ['/'] := by
  rcases pPath_prefix u with ⟨t5, h5⟩
  obtain ⟨t4, h4⟩ : ∃ t, su3 u = sPath u ++ t := querySplit_fst_prefix (su3 u)
  obtain ⟨t3, h3⟩ : ∃ t, su2 u = su3 u ++ t := fragSplit_fst_prefix (su2 u)
  rcases su2_shape u hfired with hsu2 | ⟨d, r, hsu2, hd⟩
  · have hsu3 : su3 u = [] := by
      rw [hsu2] at h3
      exact (List.append_eq_nil.mp h3.symm).1
    have hsp : sPath u = [] := by
      rw [hsu3] at h4
      exact (List.append_eq_nil.mp h4.symm).1
    have hpp : pPath u = [] := by
      rw [hsp] at h5
      exact (List.append_eq_nil.mp h5.symm).1
    left
    refine ⟨hpp, ?_⟩
    unfold pParams
    rw [if_neg (by rw [hsp]; simp)]
  · have hdcase : (d = '/' ∨ d = '?') ∨ d = '#' := by
      revert hd
      unfold netEnd
      intro hd
      simpa using hd
    by_cases hpp : pPath u = []
    · left
      refine ⟨hpp, ?_⟩
      unfold pParams
      by_cases hsemi : ';' ∈ sPath u
      · rw [if_pos hsemi]
        exfalso
        have hspne : sPath u ≠ [] := by
          intro h0
          rw [h0] at hsemi
          exact absurd hsemi (by simp)
        have hsu3ne : su3 u ≠ [] := by
          intro h0
          rw [h0] at h4
          exact hspne (List.append_eq_nil.mp h4.symm).1
        have ht1 : (sPath u).take 1 = [d] := by
          have e1 : (su2 u).take 1 = [d] := by rw [hsu2]; rfl
          have e2 : (su2 u).take 1 = (su3 u).take 1 :=
            prefix_take_one (su3 u) (su2 u) t3 h3 hsu3ne
          have e3 : (su3 u).take 1 = (sPath u).take 1 :=
            prefix_take_one (sPath u) (su3 u) t4 h4 hspne
          rw [← e3, ← e2, e1]
        rcases take_one_eq_cons (sPath u) d ht1 with ⟨rs, hrs⟩
        have hdm : d ∈ sPath u := by rw [hrs]; simp
        rcases hdcase with (rfl | rfl) | rfl
        · have := pySplitParams_fst_slash (sPath u) hdm
          unfold pPath at hpp
          rw [if_pos hsemi] at hpp
          exact this hpp
        · exact sPath_no_query u hdm
        · exact sPath_no_hash u hdm
      · rw [if_neg hsemi]
    · right
      have hspne : sPath u ≠ [] := by
        intro h0
        rw [h0] at h5
        exact hpp (List.append_eq_nil.mp h5.symm).1
      have hsu3ne : su3 u ≠ [] := by
        intro h0
        rw [h0] at h4
        exact hspne (List.append_eq_nil.mp h4.symm).1
      have e1 : (su2 u).take 1 = [d] := by rw [hsu2]; rfl
      have e2 : (su2 u).take 1 = (su3 u).take 1 :=
        prefix_take_one (su3 u) (su2 u) t3 h3 hsu3ne
      have e3 : (su3 u).take 1 = (sPath u).take 1 :=
        prefix_take_one (sPath u) (su3 u) t4 h4 hspne
      have e4 : (sPath u).take 1 = (pPath u).take 1 :=
        prefix_take_one (pPath u) (sPath u) t5 h5 hpp
      have ht1 : (pPath u).take 1 = [d] := by rw [← e4, ← e3, ← e2, e1]
      rcases take_one_eq_cons (pPath u) d ht1 with ⟨rs, hrs⟩
      have hdm : d ∈ pPath u := by rw [hrs]; simp
      rcases hdcase with (rfl | rfl) | rfl
      · exact ht1
      · exact absurd hdm (pPath_no_query u)
      · exact absurd hdm (pPath_no_hash u)

/-- If the original parse found no scheme and no authority, the parsed path
cannot be mistaken for a scheme prefix. -/
theorem schemeRejects_pPath (u : List Char) (hs : (schemeSplit u).1 = []) :
    schemeRejects (pPath u) := by
  by_cases hfired : (su1 u).take 2 = ['/', '/']
  · rcases pPath_fix_fact u hfired with ⟨hpe, _⟩ | h1
    · left
      rw [hpe]
      simp
    · right
      left
      exact h1
  · have hsu1 : su1 u = u := schemeSplit_fst_nil u hs
    have hsu2 : su2 u = u := by
      unfold su2 netlocSplit
      rw [if_neg hfired]
      exact hsu1
    rcases pPath_prefix u with ⟨t5, h5⟩
    obtain ⟨t4, h4⟩ : ∃ t, su3 u = sPath u ++ t := querySplit_fst_prefix (su3 u)
    obtain ⟨t3, h3⟩ : ∃ t, su2 u = su3 u ++ t := fragSplit_fst_prefix (su2 u)
    have hu : u = pPath u ++ (t5 ++ (t4 ++ t3)) := by
      have e : su2 u = pPath u ++ (t5 ++ (t4 ++ t3)) := by
        rw [h3, h4, h5]
        simp [List.append_assoc]
      rw [hsu2] at e
      exact e
    by_cases hcol : ':' ∈ pPath u
    · cases hsf : splitFirst ':' (pPath u) with
      | none => exact absurd hcol (splitFirst_none ':' (pPath u) hsf)
      | some ab =>
        rcases ab with ⟨α, β⟩
        rcases splitFirst_eq ':' (pPath u) α β hsf with ⟨hpeq, hna⟩
        right
        right
        refine ⟨α, β, hpeq, hna, ?_⟩
        have husplit : splitFirst ':' u = some (α, β ++ (t5 ++ (t4 ++ t3))) := by
          conv_lhs => rw [hu]
          rw [hpeq, List.append_assoc]
          exact splitFirst_append_sep ':' α (β ++ (t5 ++ (t4 ++ t3))) hna
        by_cases hαe : α = []
        · exact Or.inl hαe
        · right
          cases hall : α.all isSchemeChar with
          | false => rfl
          | true =>
            exfalso
            have hne : α.isEmpty = false := by
              rw [List.isEmpty_eq_false]
              exact hαe
            have hlow : (schemeSplit u).1 = lowerStr α := by
              rw [schemeSplit_eq, husplit]
              dsimp only
              rw [if_pos (by simp [hall, hne])]
            rw [hs] at hlow
            have hα0 : α = [] := by
              have h0 := hlow.symm
              rwa [lowerStr, List.map_eq_nil_iff] at h0
            exact hαe hα0
    · exact Or.inl hcol

/-- `schemeRejects` survives stripping trailing slashes. -/
theorem schemeRejects_rstrip (pth : List Char) (h : schemeRejects pth) :
    schemeRejects (rstripSlashes pth) := by
  rcases h with h | h | ⟨α, β, hpeq, hna, hbad⟩
  · left
    intro hm
    exact h (rstripSlashes_sub pth ':' hm)
  · by_cases hne : rstripSlashes pth = []
    · left
      rw [hne]
      simp
    · right
      left
      rcases rstripSlashes_prefix pth with ⟨t, ht⟩
      rw [← prefix_take_one (rstripSlashes pth) pth t ht hne]
      exact h
  · rcases rstripSlashes_prefix pth with ⟨t, ht⟩
    have h1 : rstripSlashes pth <+: pth := ⟨t, ht.symm⟩
    have h2 : α <+: pth := ⟨':' :: β, hpeq.symm⟩
    rcases List.prefix_or_prefix_of_prefix h1 h2 with hc | hc
    · left
      intro hm
      rcases hc with ⟨q, hq⟩
      exact hna (by rw [← hq]; exact List.mem_append.mpr (Or.inl hm))
    · rcases hc with ⟨q, hq⟩
      cases q with
      | nil =>
        left
        have heq : rstripSlashes pth = α := by rw [← hq]; simp
        rw [heq]
        exact hna
      | cons q0 q' =>
        have e : α ++ ((q0 :: q') ++ t) = α ++ ':' :: β := by
          rw [← List.append_assoc, hq, ← ht, hpeq]
        have hcat := List.append_cancel_left e
        injection hcat with hq0 hrest
        right
        right
        refine ⟨α, q', ?_, hna, hbad⟩
        rw [← hq, hq0]

/-- One pass of the canonicalizer body over a rebuilt URL whose components it
recovers exactly and whose query and trailing slashes are already canonical. -/
theorem stripCore_of_reparse (sch nl pth prm nq frg : List Char)
    (hp : pyUrlparse (pyUrlunparse sch nl pth prm nq frg) =
      Except.ok ⟨sch, nl, pth, prm, nq, frg⟩)
    (hq : pyUrlencode (stripFilter (pyParseQs nq)) = nq)
    (hr : rstripSlashes (pyUrlunparse sch nl pth prm nq frg) =
      pyUrlunparse sch nl pth prm nq frg) :
    stripCore (pyUrlunparse sch nl pth prm nq frg) =
      Except.ok (pyUrlunparse sch nl pth prm nq frg) := by
  unfold stripCore
  rw [hp]
  show Except.ok (rstripSlashes (pyUrlunparse sch nl pth prm
      (pyUrlencode (stripFilter (pyParseQs nq))) frg)) =
    Except.ok (pyUrlunparse sch nl pth prm nq frg)
  rw [hq, hr]

theorem take_one_of_take_two (a : List Char) (x y : Char) (h : a.take 2 = [x, y]) :
    a.take 1 = [x] := by
  have e : a.take 1 = (a.take 2).take 1 := by
    rw [List.take_take]
    norm_num
  rw [e, h]
  rfl

theorem rstrip_take_one (pth : List Char) (hne : rstripSlashes pth ≠ []) :
    (rstripSlashes pth).take 1 = pth.take 1 := by
  rcases rstripSlashes_prefix pth with ⟨t, ht⟩
  exact (prefix_take_one (rstripSlashes pth) pth t ht hne).symm

theorem rstrip_take_two_slashes (pth : List Char) (h2 : pth.take 2 = ['/', '/'])
    (hne : rstripSlashes pth ≠ []) : (rstripSlashes pth).take 2 = ['/', '/'] := by
  cases pth with
  | nil => simp at h2
  | cons c r =>
    cases r with
    | nil =>
      simp only [List.take_succ_cons, List.take_nil] at h2
      exact absurd h2 (by simp)
    | cons c2 pr =>
      simp only [List.take_succ_cons, List.take_zero] at h2
      injection h2 with hc h2'
      injection h2' with hc2 _
      subst hc
      subst hc2
      by_cases hpr : rstripSlashes ('/' :: pr) = []
      · exfalso
        apply hne
        have e := rstripSlashes_append ['/'] ('/' :: pr)
        rw [if_pos hpr, show rstripSlashes ['/'] = [] from rfl] at e
        exact e
      · have e1 : rstripSlashes ('/' :: ('/' :: pr)) = '/' :: rstripSlashes ('/' :: pr) :=
          rstripSlashes_cons_ne '/' ('/' :: pr) hpr
        rw [e1]
        by_cases hpr2 : rstripSlashes pr = []
        · exfalso
          apply hpr
          have e := rstripSlashes_append ['/'] pr
          rw [if_pos hpr2, show rstripSlashes ['/'] = [] from rfl] at e
          exact e
        · rw [rstripSlashes_cons_ne '/' pr hpr2]
          rfl

/-- Trailing-slash stripping commutes with an optional `scheme:` prefix. -/
theorem rstrip_ifsch (sch B : List Char) :
    rstripSlashes (if sch ≠ [] then sch ++ ':' :: B else B) =
      (if sch ≠ [] then sch ++ ':' :: rstripSlashes B else rstripSlashes B) := by
  by_cases hs0 : sch ≠ []
  · rw [if_pos hs0, if_pos hs0, rstripSlashes_through sch B ':' (by decide)]
  · rw [if_neg hs0, if_neg hs0]

/-- `urlunparse` with empty params, query and fragment. -/
theorem unparse_empty_shape (sch nl pth2 : List Char) :
    pyUrlunparse sch nl pth2 [] [] [] =
      (if sch ≠ [] then sch ++ ':' :: unsplitBase nl pth2 else unsplitBase nl pth2) := by
  unfold pyUrlunparse
  rw [pyUrlunsplit_eq]
  unfold qfTail
  rw [show (if ([] : List Char) ≠ [] then pth2 ++ ';' :: [] else pth2) = pth2 from by simp]
  simp

/-- One full canonicalization pass is a fixpoint of the canonicalizer body,
for every input that parses with a semicolon-free path and a fragment that is
not a nonempty string of slashes. -/
theorem stripCore_fixpoint (u : List Char) (p : UrlParseResult)
    (hp : pyUrlparse u = Except.ok p) (hsemi : ';' ∉ p.path)
    (hfrag : ¬(p.fragment ≠ [] ∧ ∀ c ∈ p.fragment, c = '/'))
    (v : List Char) (hv : stripCore u = Except.ok v) :
    stripCore v = Except.ok v := by
  have hbr : ¬ badBrackets (sNetloc u) := by
    rw [pyUrlparse_eq] at hp
    by_cases hb : badBrackets (sNetloc u)
    · rw [if_pos hb] at hp
      exact absurd hp (by simp)
    · exact hb
  have hpcomp : p = ⟨(schemeSplit u).1, sNetloc u, pPath u, pParams u, sQuery u, sFrag u⟩ := by
    rw [pyUrlparse_eq, if_neg hbr] at hp
    injection hp with hp
    exact hp.symm
  subst hpcomp
  have hsm : ';' ∉ pPath u := hsemi
  have hfg : ¬(sFrag u ≠ [] ∧ ∀ c ∈ sFrag u, c = '/') := hfrag
  have hveq : v = rstripSlashes (pyUrlunparse (schemeSplit u).1 (sNetloc u) (pPath u)
      (pParams u) (pyUrlencode (stripFilter (pyParseQs (sQuery u)))) (sFrag u)) := by
    unfold stripCore at hv
    rw [pyUrlparse_eq, if_neg hbr] at hv
    have hv2 : Except.ok (rstripSlashes (pyUrlunparse (schemeSplit u).1 (sNetloc u)
        (pPath u) (pParams u) (pyUrlencode (stripFilter (pyParseQs (sQuery u))))
        (sFrag u))) = Except.ok v := hv
    injection hv2 with hv2
    exact hv2.symm
  have Hsch := schemeSplit_fst_spec u
  have Hnl := sNetloc_no_netEnd u
  have HpH := pPath_no_hash u
  have HpQ := pPath_no_query u
  have Hprm := pParams_no_specials u
  have Hfix : sNetloc u ≠ [] → (pPath u = [] ∧ pParams u = []) ∨ (pPath u).take 1 = ['/'] :=
    fun hnlne => pPath_fix_fact u (sNetloc_fired u hnlne)
  have HschR : (schemeSplit u).1 = [] → schemeRejects (pPath u) := schemeRejects_pPath u
  have Hstable : pyUrlencode (stripFilter (pyParseQs
      (pyUrlencode (stripFilter (pyParseQs (sQuery u)))))) =
      pyUrlencode (stripFilter (pyParseQs (sQuery u))) :=
    congrArg pyUrlencode (stripFilter_stable (sQuery u))
  set sch := (schemeSplit u).1 with hschdef
  set nl := sNetloc u with hnldef
  set pth := pPath u with hpthdef
  set prm := pParams u with hprmdef
  set frg := sFrag u with hfrgdef
  set nq := pyUrlencode (stripFilter (pyParseQs (sQuery u))) with hnqdef
  have HnqH : '#' ∉ nq := by
    rw [hnqdef]
    exact pyUrlencode_not_mem '#' _ (by decide)
  have HnqS : '/' ∉ nq := by
    rw [hnqdef]
    exact pyUrlencode_not_mem '/' _ (by decide)
  have hrv : rstripSlashes v = v := by
    rw [hveq, rstripSlashes_idem]
  by_cases hfz : frg = []
  · by_cases hnqz : nq = []
    · by_cases hprmz : prm = []
      · -- params, query and fragment all empty
        rw [hfz, hnqz, hprmz, unparse_empty_shape sch nl pth, rstrip_ifsch] at hveq
        have hκ : rstripSlashes (unsplitBase nl pth) =
            unsplitBase nl (rstripSlashes pth) := by
          by_cases hE : nl ≠ [] ∨ pth.take 2 = ['/', '/']
          · have htake1 : pth = [] ∨ pth.take 1 = ['/'] := by
              rcases hE with hnl' | h2
              · rcases Hfix hnl' with ⟨hpe, _⟩ | h1
                · exact Or.inl hpe
                · exact Or.inr h1
              · exact Or.inr (take_one_of_take_two pth '/' '/' h2)
            have hfixE : (if pth ≠ [] ∧ pth.take 1 ≠ ['/'] then '/' :: pth else pth) =
                pth := by
              rcases htake1 with h | h
              · rw [if_neg (by simp [h])]
              · rw [if_neg (by simp [h])]
            have hBase : unsplitBase nl pth = '/' :: '/' :: (nl ++ pth) := by
              unfold unsplitBase
              rw [if_pos hE, hfixE]
            rw [hBase]
            by_cases hpz : rstripSlashes pth = []
            · by_cases hnlz : nl = []
              · have hL : rstripSlashes ('/' :: '/' :: (nl ++ pth)) = [] := by
                  rw [rstripSlashes_eq_nil_iff]
                  intro c hc
                  rcases List.mem_cons.mp hc with rfl | hc
                  · rfl
                  rcases List.mem_cons.mp hc with rfl | hc
                  · rfl
                  rcases List.mem_append.mp hc with hc | hc
                  · rw [hnlz] at hc
                    exact absurd hc (by simp)
                  · exact (rstripSlashes_eq_nil_iff pth).mp hpz c hc
                rw [hL, hpz, hnlz]
                unfold unsplitBase
                rw [if_neg (by simp)]
              · have hnlS : '/' ∉ nl := by
                  intro hm
                  have := Hnl '/' hm
                  exact absurd this (by decide)
                have e1 : rstripSlashes nl = nl := rstripSlashes_no_slash nl hnlS
                have hL : rstripSlashes ('/' :: '/' :: (nl ++ pth)) = '/' :: '/' :: nl := by
                  have e0 : ('/' :: '/' :: (nl ++ pth)) = ('/' :: '/' :: nl) ++ pth := by
                    simp
                  rw [e0, rstripSlashes_append, if_pos hpz,
                    show ('/' :: '/' :: nl) = ['/', '/'] ++ nl from rfl,
                    rstripSlashes_append, if_neg (by rw [e1]; exact hnlz), e1]
                rw [hL, hpz]
                unfold unsplitBase
                rw [if_pos (Or.inl hnlz), if_neg (by simp)]
                simp
            · have hL : rstripSlashes ('/' :: '/' :: (nl ++ pth)) =
                  '/' :: '/' :: (nl ++ rstripSlashes pth) := by
                have e0 : ('/' :: '/' :: (nl ++ pth)) = ('/' :: '/' :: nl) ++ pth := by
                  simp
                rw [e0, rstripSlashes_append, if_neg hpz]
                simp
              rw [hL]
              have hE' : nl ≠ [] ∨ (rstripSlashes pth).take 2 = ['/', '/'] := by
                rcases hE with h | h
                · exact Or.inl h
                · exact Or.inr (rstrip_take_two_slashes pth h hpz)
              have hfix' : (if rstripSlashes pth ≠ [] ∧
                  (rstripSlashes pth).take 1 ≠ ['/'] then '/' :: rstripSlashes pth
                  else rstripSlashes pth) = rstripSlashes pth := by
                rcases htake1 with h | h
                · exfalso
                  apply hpz
                  rw [h]
                  rfl
                · rw [if_neg ?_]
                  rintro ⟨_, hne2⟩
                  exact hne2 (by rw [rstrip_take_one pth hpz, h])
              unfold unsplitBase
              rw [if_pos hE', hfix']
          · have hEn := hE
            push_neg at hEn
            have hL : unsplitBase nl pth = pth := by
              unfold unsplitBase
              rw [if_neg hE]
            rw [hL]
            have hcond : ¬(nl ≠ [] ∨ (rstripSlashes pth).take 2 = ['/', '/']) := by
              refine not_or.mpr ⟨by simpa using hEn.1, ?_⟩
              by_cases hpz : rstripSlashes pth = []
              · rw [hpz]
                simp
              · rcases rstripSlashes_prefix pth with ⟨t, ht⟩
                exact take_two_pres (rstripSlashes pth) t (by rw [← ht]; exact hEn.2) hpz
            unfold unsplitBase
            rw [if_neg hcond]
        have hvR : v = pyUrlunparse sch nl (rstripSlashes pth) [] [] [] := by
          rw [hveq, hκ, ← unparse_empty_shape]
        rw [hvR]
        apply stripCore_of_reparse
        · refine pyUrlparse_pyUrlunparse sch nl (rstripSlashes pth) [] [] [] Hsch
            (fun h1 _ _ => schemeRejects_rstrip pth (HschR h1)) Hnl hbr
            (fun hm => HpH (rstripSlashes_sub pth '#' hm))
            (fun hm => HpQ (rstripSlashes_sub pth '?' hm))
            (fun hm => hsm (rstripSlashes_sub pth ';' hm))
            ?_ (by simp) (by simp) (by simp) (by simp)
          intro hnlne
          by_cases hpz : rstripSlashes pth = []
          · exact Or.inl ⟨hpz, rfl⟩
          · right
            rcases Hfix hnlne with ⟨hpe, _⟩ | h1
            · exfalso
              apply hpz
              rw [hpe]
              rfl
            · rw [rstrip_take_one pth hpz]
              exact h1
        · rfl
        · rw [← hvR]
          exact hrv
      · -- params nonempty, query and fragment empty
        have hbaseP : ∃ Y, unsplitBase nl (pth ++ ';' :: prm) =
            Y ++ (pth ++ ';' :: prm) := by
          unfold unsplitBase
          by_cases hE : nl ≠ [] ∨ (pth ++ ';' :: prm).take 2 = ['/', '/']
          · rw [if_pos hE]
            by_cases hf : (pth ++ ';' :: prm) ≠ [] ∧ (pth ++ ';' :: prm).take 1 ≠ ['/']
            · rw [if_pos hf]
              exact ⟨'/' :: '/' :: (nl ++ ['/']), by simp⟩
            · rw [if_neg hf]
              exact ⟨['/', '/'] ++ nl, by simp⟩
          · rw [if_neg hE]
            exact ⟨[], by simp⟩
        obtain ⟨Y, hY⟩ := hbaseP
        have hRp : pyUrlunparse sch nl pth prm nq frg =
            ((if sch ≠ [] then sch ++ [':'] else []) ++ (Y ++ pth)) ++ ';' :: prm := by
          unfold pyUrlunparse
          rw [pyUrlunsplit_eq]
          unfold qfTail
          rw [hfz, hnqz,
            show (if ([] : List Char) ≠ [] then '?' :: ([] : List Char) else []) = []
              from by simp,
            show (if ([] : List Char) ≠ [] then '#' :: ([] : List Char) else []) = []
              from by simp,
            List.append_nil, List.append_nil, if_pos hprmz, hY]
          by_cases hs0 : sch ≠ []
          · rw [if_pos hs0, if_pos hs0]
            simp [List.append_assoc]
          · rw [if_neg hs0, if_neg hs0]
            simp [List.append_assoc]
        have hvR : v = pyUrlunparse sch nl pth prm nq frg := by
          rw [hveq, hRp, rstripSlashes_through _ prm ';' (by decide),
            rstripSlashes_no_slash prm Hprm.1, ← hRp]
        rw [hvR]
        apply stripCore_of_reparse
        · exact pyUrlparse_pyUrlunparse sch nl pth prm nq frg Hsch
            (fun h1 _ _ => HschR h1) Hnl hbr HpH HpQ hsm Hfix
            Hprm.1 Hprm.2.1 Hprm.2.2 HnqH
        · exact Hstable
        · rw [← hvR]
          exact hrv
    · -- query nonempty, fragment empty
      have hRq : pyUrlunparse sch nl pth prm nq frg =
          (if sch ≠ [] then
            sch ++ ':' :: unsplitBase nl (if prm ≠ [] then pth ++ ';' :: prm else pth)
          else unsplitBase nl (if prm ≠ [] then pth ++ ';' :: prm else pth)) ++
            '?' :: nq := by
        unfold pyUrlunparse
        rw [pyUrlunsplit_eq]
        unfold qfTail
        rw [hfz,
          show (if ([] : List Char) ≠ [] then '#' :: ([] : List Char) else []) = []
            from by simp,
          List.append_nil, if_pos hnqz]
      have hvR : v = pyUrlunparse sch nl pth prm nq frg := by
        rw [hveq, hRq, rstripSlashes_through _ nq '?' (by decide),
          rstripSlashes_no_slash nq HnqS, ← hRq]
      rw [hvR]
      apply stripCore_of_reparse
      · exact pyUrlparse_pyUrlunparse sch nl pth prm nq frg Hsch
          (fun h1 _ _ => HschR h1) Hnl hbr HpH HpQ hsm Hfix
          Hprm.1 Hprm.2.1 Hprm.2.2 HnqH
      · exact Hstable
      · rw [← hvR]
        exact hrv
  · -- fragment nonempty; by hypothesis it is not all slashes
    have hfs : rstripSlashes frg ≠ [] := by
      intro h0
      exact hfg ⟨hfz, (rstripSlashes_eq_nil_iff frg).mp h0⟩
    have hW : ∀ f2 : List Char, f2 ≠ [] → pyUrlunparse sch nl pth prm nq f2 =
        ((if sch ≠ [] then
          sch ++ ':' :: unsplitBase nl (if prm ≠ [] then pth ++ ';' :: prm else pth)
         else unsplitBase nl (if prm ≠ [] then pth ++ ';' :: prm else pth)) ++
          (if nq ≠ [] then '?' :: nq else [])) ++ '#' :: f2 := by
      intro f2 hf2
      unfold pyUrlunparse
      rw [pyUrlunsplit_eq]
      unfold qfTail
      rw [if_pos hf2, ← List.append_assoc]
    have hveq2 : v = pyUrlunparse sch nl pth prm nq (rstripSlashes frg) := by
      rw [hveq, hW frg hfz, rstripSlashes_through _ frg '#' (by decide), hW _ hfs]
    rw [hveq2]
    apply stripCore_of_reparse
    · exact pyUrlparse_pyUrlunparse sch nl pth prm nq (rstripSlashes frg) Hsch
        (fun h1 _ _ => HschR h1) Hnl hbr HpH HpQ hsm Hfix
        Hprm.1 Hprm.2.1 Hprm.2.2 HnqH
    · exact Hstable
    · rw [← hveq2]
      exact hrv

/-- C4 (amended): canonicalization is idempotent for every string that fails
to parse, and for every string whose parsed path contains no `';'` and whose
fragment is not a nonempty run of slashes.  (The unrestricted claim is false:
see the counterexample theorem.) -/
theorem c4_amended (u : String)
    (h : ∀ p, pyUrlparse u.data = Except.ok p →
      ';' ∉ p.path ∧ ¬(p.fragment ≠ [] ∧ ∀ c ∈ p.fragment, c = '/')) :
    strip_tracking_params (strip_tracking_params u) = strip_tracking_params u := by
  by_cases hd : u.data = []
  · have h1 : strip_tracking_params u = u := by
      unfold strip_tracking_params
      rw [if_pos hd]
    rw [h1, h1]
  · cases hsc : stripCore u.data with
    | error e =>
      have h1 : strip_tracking_params u = u := by
        unfold strip_tracking_params
        rw [if_neg hd, hsc]
      rw [h1, h1]
    | ok v =>
      have h1 : strip_tracking_params u = ⟨v⟩ := by
        unfold strip_tracking_params
        rw [if_neg hd, hsc]
      rw [h1]
      by_cases hvz : v = []
      · unfold strip_tracking_params
        rw [if_pos (show (⟨v⟩ : String).data = [] from hvz)]
      · obtain ⟨p, hpp⟩ : ∃ p, pyUrlparse u.data = Except.ok p := by
          unfold stripCore at hsc
          cases hparse : pyUrlparse u.data with
          | error e2 =>
            rw [hparse] at hsc
            have hco : (Except.error e2 : Except UErr (List Char)) = Except.ok v := hsc
            exact absurd hco (by simp)
          | ok p => exact ⟨p, rfl⟩
        rcases h p hpp with ⟨hsemi, hfrag⟩
        have hfix := stripCore_fixpoint u.data p hpp hsemi hfrag v hsc
        unfold strip_tracking_params
        rw [show (⟨v⟩ : String).data = v from rfl, if_neg hvz, hfix]

/-- C4 (counterexample): canonicalization is not idempotent on all strings.
A trailing all-slash fragment loses its `'#'` on the second pass, and a
trailing-semicolon path loses its `';'` on the second pass. -/
theorem c4_counterexample :
    strip_tracking_params "http://a.com#/" = "http://a.com#" ∧
      strip_tracking_params "http://a.com#" = "http://a.com" ∧
      strip_tracking_params (strip_tracking_params "http://a.com#/") ≠
        strip_tracking_params "http://a.com#/" ∧
      strip_tracking_params (strip_tracking_params "http://h/a;/") ≠
        strip_tracking_params "http://h/a;/" := by
  refine ⟨by decide, by decide, by decide, by decide⟩

/-- Witness for C4 at a concrete parseable URL with a query. -/
theorem c4_witness :
    strip_tracking_params (strip_tracking_params "http://a.com/x?b=c") =
      strip_tracking_params "http://a.com/x?b=c" := by
  apply c4_amended
  intro p hp
  have h0 : pyUrlparse "http://a.com/x?b=c".data =
      Except.ok ⟨"http".data, "a.com".data, "/x".data, [], "b=c".data, []⟩ := rfl
  rw [h0] at hp
  injection hp with hp
  subst hp
  exact ⟨by decide, by decide⟩
